import Mathlib

/-!
Verification of the N-dimensional sequence-alignment engine (`nw.py`, `sw.py`,
`config.py`, `score.py`).

Sequences are embedded as `List Char`, coordinates as `List Nat`, the nested
mutable list matrix as a finite map `Coord → Option Score` (a slot holding
`none` models a Python `None` entry, i.e. an unset cell), and the mutable
`while`-loop of `solve` as a fuel-indexed loop with explicit state passing.
Fallible Python operations (sequence indexing, attribute access on `None`) are
embedded in the `Except PyErr` monad.
-/

/-- Python runtime error conditions that the embedded code can raise.
`nonTermination` is the fuel-exhaustion marker standing for a Python loop that
never exits (the embedding always supplies enough fuel for terminating runs,
which is proved below). -/
inductive PyErr where
  | indexError : PyErr
  | attributeError : PyErr
  | typeError : PyErr
  | nonTermination : PyErr
deriving DecidableEq, Repr

/-- A lattice coordinate: one entry per sequence (`score.py` stores these as
plain Python lists). -/
abbrev Coord := List Nat

/-- `score.py`: class `Score` with fields `coordinate` (the predecessor
coordinate, possibly `None`) and `score`.  The `move` field defaults to `None`
and is never written or read anywhere in the repository, so it is omitted. -/
structure Score where
  coordinate : Option Coord
  score : Int
deriving DecidableEq, Repr

/-- `config.py`: class `Config` holding the four scoring weights.  The Python
field `match` is a Lean keyword and is rendered `matchS`. -/
structure Config where
  matchS : Int := 5
  mismatch : Int := -2
  gap : Int := -4
  twogaps : Int := 0
deriving DecidableEq, Repr

/-- The sequences handed to an engine. -/
abbrev Seqs := List (List Char)

/-- The alignment matrix: the nested-list structure of `initializeMatrix` is
embedded as a map from coordinates to optional cells; an unset (Python `None`)
slot is `none`. -/
abbrev AMatrix := Coord → Option Score

/-- `NW.enterelement` / `SW.enterelement`: write `value` at `coordinate`. -/
def enterelement (m : AMatrix) (coordinate : Coord) (value : Score) : AMatrix :=
  fun x => if x = coordinate then some value else m x

/-- `NW.retrievematrixelement` / `SW.retrievematrixelement`: read the slot at
`coord`. -/
def retrievematrixelement (m : AMatrix) (coord : Coord) : Option Score :=
  m coord

/-- Helper for `generatebasepairs`: walks `zip(x, range(len(x)))` with `v` the
running index, raising `IndexError` exactly where Python would (sequence index
`v` out of range, or symbol index `u-1` out of range). -/
def generatebasepairsAux (seqs : Seqs) : List Nat → Nat → Except PyErr (List Char)
  | [], _ => pure []
  | u :: us, v =>
    if u = 0 then do
      let rest ← generatebasepairsAux seqs us (v + 1)
      pure ('_' :: rest)
    else
      match seqs.get? v with
      | none => throw .indexError
      | some s =>
        match s.get? (u - 1) with
        | none => throw .indexError
        | some ch => do
          let rest ← generatebasepairsAux seqs us (v + 1)
          pure (ch :: rest)

/-- `NW.generatebasepairs` / `SW.generatebasepairs`: the base string for a
coordinate — `'_'` where `x[v] = 0`, otherwise `sequences[v][x[v]-1]`. -/
def generatebasepairs (seqs : Seqs) (x : Coord) : Except PyErr (List Char) :=
  generatebasepairsAux seqs x 0

/-- The loop body of `generatemoves`: for each further base character, gap
positions stay gapped, symbol positions branch (symbol-extensions listed first,
then gap-extensions, exactly Python's list order). -/
def movesStep (acc : List (List Char)) (c : Char) : List (List Char) :=
  if c = '_' then acc.map (fun y => y ++ ['_'])
  else (acc.map (fun y => y ++ [c])) ++ (acc.map (fun y => y ++ ['_']))

/-- `NW.generatemoves` / `SW.generatemoves`: all gap/consume patterns over the
base string, with the all-gap pattern removed (`list.remove` drops the first
occurrence).  Python would raise on an empty base string (`x[0]`); `solve`
always passes a string of length `N ≥ 1`. -/
def generatemoves (x : List Char) : List (List Char) :=
  match x with
  | [] => []
  | c :: rest =>
    (rest.foldl movesStep (if c ≠ '_' then [[c], ['_']] else [[c]])).erase
      (List.replicate (rest.length + 1) '_')

/-- `NW.generatecoordinates` / `SW.generatecoordinates`: predecessor coordinate
of move `x` taken at coordinate `y`: gapped dimensions keep their value,
consuming dimensions step back by one.  (Python computes `v - 1` on ints; here
truncated `Nat` subtraction — inside `solve` consuming dimensions always have
`v ≥ 1`, which is proved below.) -/
def generatecoordinates (x : List Char) (y : Coord) : Coord :=
  (x.zip y).map (fun uv => if uv.1 = '_' then uv.2 else uv.2 - 1)

/-- `NW.getallpairs` / `SW.getallpairs`: all ordered pairs `(x[u], a)` with `a`
after position `u`, in Python's enumeration order. -/
def getallpairs (x : List Char) : List (Char × Char) :=
  (List.range (x.length - 1)).foldl
    (fun result u => result ++ ((x.drop (u + 1)).map (fun a => (x.getD u '_', a)))) []

/-- `NW.scorePair` / `SW.scorePair`: score one pair of column entries. -/
def scorePair (cfg : Config) (x : Char × Char) : Int :=
  if x.1 = '_' ∧ x.2 = '_' then cfg.twogaps
  else if x.1 = '_' ∨ x.2 = '_' then cfg.gap
  else if x.1 = x.2 then cfg.matchS
  else cfg.mismatch

/-- One step of `increase`'s carry loop: if digit `x` has overflowed to
`len(sequences[x]) + 1`, reset it and bump digit `x+1`. -/
def carryStep (seqs : Seqs) (c : List Nat) (x : Nat) : List Nat :=
  if c.getD x 0 = (seqs.getD x []).length + 1 then
    (c.set x 0).set (x + 1) (c.getD (x + 1) 0 + 1)
  else c

/-- `NW.increase` / `SW.increase`: bump digit 0 and run the carry loop over
positions `0 .. N-2`. -/
def increase (seqs : Seqs) (counter : Coord) : Coord :=
  (List.range (seqs.length - 1)).foldl (carryStep seqs) (counter.set 0 (counter.getD 0 0 + 1))

/-- The all-zero coordinate (`[0]*len(sequences)`). -/
def zeroC (seqs : Seqs) : Coord :=
  List.replicate seqs.length 0

/-- The matrix right after `__init__`: all slots unset except the seeded origin
cell `Score([0]*N, 0)` — note the seeded predecessor is the origin coordinate
itself, not `None`. -/
def initMatrix (seqs : Seqs) : AMatrix :=
  enterelement (fun _ => none) (zeroC seqs) ⟨some (zeroC seqs), 0⟩

/-- The initial traversal counter `[1] + [0]*(N-1)`. -/
def initCounter (seqs : Seqs) : Coord :=
  1 :: List.replicate (seqs.length - 1) 0

/-- The `while` guard of `solve`, negated: the loop exits when
`counter[-1] == len(sequences[-1]) + 1`. -/
def exitCond (seqs : Seqs) (counter : Coord) : Prop :=
  counter.getLast?.getD 0 = (seqs.getLast?.getD []).length + 1

instance (seqs : Seqs) (counter : Coord) : Decidable (exitCond seqs counter) := by
  unfold exitCond; infer_instance

/-- The per-move body of `NW.solve`'s inner `for` loop: fetch the predecessor
cell (`AttributeError` if unset, as `.score` on `None`), add the column score,
and keep the running `(maxscore, bestmove)` on strict improvement. -/
def moveFold (cfg : Config) (m : AMatrix) (counter : Coord)
    (acc : Int × Option Coord) (move : List Char) : Except PyErr (Int × Option Coord) :=
  match retrievematrixelement m (generatecoordinates move counter) with
  | none => throw .attributeError
  | some sc =>
    let newscore := sc.score + ((getallpairs move).map (scorePair cfg)).sum
    if newscore > acc.1 then pure (newscore, some (generatecoordinates move counter))
    else pure acc

/-- One iteration of `NW.solve`'s `while` loop at the current counter:
`maxscore` starts at the sentinel `-100000000` and `bestmove` at `None`. -/
def NWbody (seqs : Seqs) (cfg : Config) (m : AMatrix) (counter : Coord) :
    Except PyErr AMatrix := do
  let basepair ← generatebasepairs seqs counter
  let moves := generatemoves basepair
  let best ← moves.foldlM (moveFold cfg m counter) (-100000000, none)
  pure (enterelement m counter ⟨best.2, best.1⟩)

/-- The shared `while counter[-1] != len(sequences[-1]) + 1` traversal of
`NW.solve` and `SW.solve`, generic in the per-coordinate body and loop state. -/
def loopIter (seqs : Seqs) (body : σ → Coord → Except PyErr σ) :
    Nat → σ → Coord → Except PyErr σ
  | 0, _, _ => throw .nonTermination
  | fuel + 1, s, counter =>
    if exitCond seqs counter then pure s
    else do
      let s' ← body s counter
      loopIter seqs body fuel s' (increase seqs counter)

/-- Total number of lattice coordinates, `∏ (lengthᵢ + 1)`. -/
def latticeSize (lens : List Nat) : Nat :=
  (lens.map (· + 1)).prod

/-- `NW.solve`: run the traversal from the freshly initialized state. -/
def NWsolve (seqs : Seqs) (cfg : Config) : Except PyErr AMatrix :=
  loopIter seqs (NWbody seqs cfg) (latticeSize (seqs.map List.length) + 1)
    (initMatrix seqs) (initCounter seqs)

/-- The per-move body of `SW.solve`'s inner `for` loop: like `moveFold`, and
additionally updates the running global best `(bestscore, bestcoordinate)` on
strict improvement. -/
def swMoveFold (cfg : Config) (m : AMatrix) (counter : Coord)
    (acc : (Int × Option Coord) × (Int × Coord)) (move : List Char) :
    Except PyErr ((Int × Option Coord) × (Int × Coord)) :=
  match retrievematrixelement m (generatecoordinates move counter) with
  | none => throw .attributeError
  | some sc =>
    let newscore := sc.score + ((getallpairs move).map (scorePair cfg)).sum
    let cell := if newscore > acc.1.1 then (newscore, some (generatecoordinates move counter))
      else acc.1
    let best := if newscore > acc.2.1 then (newscore, counter) else acc.2
    pure (cell, best)

/-- One iteration of `SW.solve`'s `while` loop: `maxscore` starts at `0` and
`bestmove` at `None`; the global best state is threaded through. -/
def SWbody (seqs : Seqs) (cfg : Config) (st : AMatrix × (Int × Coord)) (counter : Coord) :
    Except PyErr (AMatrix × (Int × Coord)) := do
  let basepair ← generatebasepairs seqs counter
  let moves := generatemoves basepair
  let r ← moves.foldlM (swMoveFold cfg st.1 counter) ((0, none), st.2)
  pure (enterelement st.1 counter ⟨r.1.2, r.1.1⟩, r.2)

/-- `SW.solve`: run the traversal with `bestscore = 0`,
`bestcoordinate = [0]*N`. -/
def SWsolve (seqs : Seqs) (cfg : Config) : Except PyErr (AMatrix × (Int × Coord)) :=
  loopIter seqs (SWbody seqs cfg) (latticeSize (seqs.map List.length) + 1)
    (initMatrix seqs, (0, zeroC seqs)) (initCounter seqs)

/-- The predecessor-following `while` loop of `NW.__str__`: from the current
coordinate, repeatedly prepend the stored predecessor until the all-zero
coordinate is reached.  Reading an unset cell is the `AttributeError` of
`.coordinate` on `None`; a stored `None` predecessor makes the next iteration
call `retrievematrixelement(None)`, Python's `TypeError`. -/
def tracebackLoop (m : AMatrix) (zero : Coord) :
    Nat → Coord → List Coord → Except PyErr (List Coord)
  | 0, _, _ => throw .nonTermination
  | fuel + 1, currentorigin, result =>
    if currentorigin = zero then pure result
    else
      match retrievematrixelement m currentorigin with
      | none => throw .attributeError
      | some sc =>
        match sc.coordinate with
        | none => throw .typeError
        | some p => tracebackLoop m zero fuel p (p :: result)

/-- The output-string construction of `NW.__str__`: for every consecutive pair
(origin, destination) of the traceback chain and every sequence `v`, emit `'.'`
when that dimension did not advance, otherwise `sequences[v][destination[v]-1]`
(the `'?'` default marks an out-of-range index, which Python would raise on;
it is proved unreachable below). -/
def buildRows (seqs : Seqs) (chain : List Coord) : List (List Char) :=
  (List.range seqs.length).map (fun v =>
    (chain.zip chain.tail).map (fun ab =>
      if ab.1.getD v 0 = ab.2.getD v 0 then '.'
      else (seqs.getD v []).getD (ab.2.getD v 0 - 1) '?'))

/-- The report produced by `NW.__str__`: either the not-solved message or the
score header plus one aligned row per sequence. -/
inductive NWOutput where
  | notSolved : NWOutput
  | solved : Int → List (List Char) → NWOutput
deriving DecidableEq, Repr

/-- `NW.__str__`: note the far-corner cell's `.score` is dereferenced for the
header line BEFORE the `None` check, so an unsolved matrix raises
`AttributeError` and the `notSolved` branch is dead code. -/
def NWstr (seqs : Seqs) (m : AMatrix) : Except PyErr NWOutput :=
  match retrievematrixelement m (seqs.map List.length) with
  | none => throw .attributeError
  | some sc =>
    if retrievematrixelement m (seqs.map List.length) = none then pure .notSolved
    else do
      let result ← tracebackLoop m (zeroC seqs) ((seqs.map List.length).sum + 1)
        (seqs.map List.length) []
      pure (.solved sc.score (buildRows seqs (result ++ [seqs.map List.length])))

/-- `solve()` followed by `str()` on the same engine, the flow of `nw.main`. -/
def NWreport (seqs : Seqs) (cfg : Config) : Except PyErr NWOutput := do
  let m ← NWsolve seqs cfg
  NWstr seqs m

/-- Outcome of the command-line entry point. -/
inductive MainResult where
  | refused : MainResult
  | report : NWOutput → MainResult
deriving DecidableEq, Repr

/-- `nw.main`: with at most one sequence it prints a user message and returns
without constructing an engine; otherwise it constructs, solves and prints. -/
def mainNW (seqs : Seqs) (cfg : Config) : Except PyErr MainResult :=
  if seqs.length ≤ 1 then pure .refused
  else do
    let m ← NWsolve seqs cfg
    let out ← NWstr seqs m
    pure (.report out)

/-- Modelled from the spec: the independent classical two-sequence
Needleman–Wunsch reference recurrence under linear scoring — `F(0,0) = 0`,
border cells accumulate the gap weight, and interior cells take the maximum of
diagonal (match/mismatch weight), up and left (gap weight) predecessors.  The
repository has no second implementation of this; the spec's testable property
asks for comparison against exactly this brute-force recurrence. -/
def refNW (cfg : Config) (s t : List Char) : Nat → Nat → Int
  | 0, 0 => 0
  | i + 1, 0 => refNW cfg s t i 0 + cfg.gap
  | 0, j + 1 => refNW cfg s t 0 j + cfg.gap
  | i + 1, j + 1 =>
    max (refNW cfg s t i j +
        (if s.getD i '?' = t.getD j '?' then cfg.matchS else cfg.mismatch))
      (max (refNW cfg s t i (j + 1) + cfg.gap) (refNW cfg s t (i + 1) j + cfg.gap))
termination_by i j => (i, j)

/-- The value `generatebasepairs` returns on an in-bounds coordinate (proved
below); used to state properties without threading the `Except` monad. -/
def basepairsP (seqs : Seqs) (x : Coord) : List Char :=
  List.zipWith (fun u s => if u = 0 then '_' else s.getD (u - 1) '?') x seqs

/-- The candidate score of one move at coordinate `c`, read off a matrix:
predecessor cell score plus the summed pair scores of the move's column. -/
def candScore (m : AMatrix) (cfg : Config) (c : Coord) (mv : List Char) : Int :=
  ((m (generatecoordinates mv c)).getD ⟨none, 0⟩).score
    + ((getallpairs mv).map (scorePair cfg)).sum

/-- Generic strict-improvement accumulator: the shape of both the per-cell
`(maxscore, bestmove)` fold and the global `(bestscore, bestcoordinate)` fold
in `solve`. -/
def bestFold (f : α → Int) (g : α → β) (init : Int × β) (l : List α) : Int × β :=
  l.foldl (fun acc v => if f v > acc.1 then (f v, g v) else acc) init

/-- All lattice coordinates for dimension sizes `lens`, in odometer order
(dimension 0 fastest): the exact visit order of `solve`'s counter, with the
all-zero origin first. -/
def lattice : List Nat → List Coord
  | [] => [[]]
  | L :: ls => (lattice ls).flatMap (fun r => (List.range (L + 1)).map (fun i => i :: r))

/-- Mixed-radix rank of a coordinate: its position in odometer order. -/
def rankC : List Nat → Coord → Nat
  | [], _ => 0
  | _ :: _, [] => 0
  | L :: ls, c :: cs => c + (L + 1) * rankC ls cs

/-- Delete the gap markers from an output row. -/
def stripGaps (s : List Char) : List Char :=
  s.filter (fun ch => ch ≠ '.')

/-- The stream of `(coordinate, candidate score)` pairs a cell contributes to
`SW.solve`'s global best tracking, read off a matrix. -/
def cellCands (m : AMatrix) (cfg : Config) (seqs : Seqs) (c : Coord) : List (Coord × Int) :=
  (generatemoves (basepairsP seqs c)).map (fun mv => (c, candScore m cfg c mv))

/-- The candidate scores of all moves at coordinate `c`, read off a matrix. -/
def candsAt (m : AMatrix) (cfg : Config) (seqs : Seqs) (c : Coord) : List Int :=
  (generatemoves (basepairsP seqs c)).map (candScore m cfg c)

/-- Componentwise membership in the lattice: same arity as `lens` and each
entry at most the corresponding sequence length. -/
def inLattice (lens : List Nat) (c : Coord) : Prop :=
  List.Forall₂ (fun u L => u ≤ L) c lens

/-- One valid traceback step from destination `b` back to predecessor `a`:
some dimension moved, and every dimension either kept its value or stepped
down by exactly one from a positive value. -/
def stepOK (a b : Coord) : Prop :=
  a ≠ b ∧ List.Forall₂ (fun u v => u = v ∨ (1 ≤ v ∧ u = v - 1)) a b

/-- Straight-line form of the traversal: process the given coordinates in
order with the loop body.  `loopIter` is proved to reduce to this along the
odometer coordinate list. -/
def fillList (body : σ → Coord → Except PyErr σ) : List Coord → σ → Except PyErr σ
  | [], s => pure s
  | c :: cs, s => do
    let s' ← body s c
    fillList body cs s'

/-- The pure value of the per-cell move fold at `c`, read off a matrix whose
relevant predecessor slots are set; `init` is `(-100000000, none)` for the
global engine and `(0, none)` for the local one. -/
def cellBest (m : AMatrix) (cfg : Config) (seqs : Seqs) (c : Coord)
    (init : Int × Option Coord) : Int × Option Coord :=
  bestFold (candScore m cfg c) (fun mv => some (generatecoordinates mv c)) init
    (generatemoves (basepairsP seqs c))

/-- Loop invariant of `NW.solve`: the slots set so far are exactly the
processed coordinates `pre`, the seeded origin cell is untouched, and every
processed non-origin cell holds the result of its move fold read off the
current matrix. -/
def NWInv (seqs : Seqs) (cfg : Config) (pre : List Coord) (m : AMatrix) : Prop :=
  (∀ x, (m x).isSome ↔ x ∈ pre) ∧
  m (zeroC seqs) = some ⟨some (zeroC seqs), 0⟩ ∧
  ∀ d ∈ pre, d ≠ zeroC seqs →
    m d = some ⟨(cellBest m cfg seqs d (-100000000, none)).2,
      (cellBest m cfg seqs d (-100000000, none)).1⟩

/-- Loop invariant of `SW.solve`: as `NWInv` but with the zero-floored cell
fold, plus the running `(bestscore, bestcoordinate)` pair being the
strict-improvement fold over the candidate stream of the processed cells. -/
def SWInv (seqs : Seqs) (cfg : Config) (pre : List Coord) (m : AMatrix)
    (best : Int × Coord) : Prop :=
  (∀ x, (m x).isSome ↔ x ∈ pre) ∧
  m (zeroC seqs) = some ⟨some (zeroC seqs), 0⟩ ∧
  (∀ d ∈ pre, d ≠ zeroC seqs →
    m d = some ⟨(cellBest m cfg seqs d (0, none)).2,
      (cellBest m cfg seqs d (0, none)).1⟩) ∧
  best = bestFold Prod.snd Prod.fst (0, zeroC seqs)
    ((pre.filter (fun d => d ≠ zeroC seqs)).flatMap (cellCands m cfg seqs))
example : (NWsolve [['A']] {}).map (fun m => m [1]) = .ok (some ⟨some [0], 0⟩) := by rfl
example : NWsolve [[], ['A']] {} = .error .indexError := by rfl
example : (NWsolve [['A'], ['A']] {}).map (fun m => m [1, 1]) =
    .ok (some ⟨some [0, 0], 5⟩) := by rfl
example : NWreport [['A'], ['A']] {} = .ok (.solved 5 [['A'], ['A']]) := by rfl
example : (SWsolve [['A'], ['A']] {}).map (fun st => (st.1 [1, 1], st.2)) =
    .ok (some ⟨some [0, 0], 5⟩, (5, [1, 1])) := by rfl
example : lattice [1, 1] = [[0, 0], [1, 0], [0, 1], [1, 1]] := by rfl

/-- C1: On any lattice the stored score of `NW.solve` is claimed to be the
exact maximum of the move candidates with a predecessor always present and no
flooring for any scoring weights.  The sentinel initialisation
`maxscore = -100000000` falsifies this: with `gap = -300000000` the only
candidate at coordinate `[1, 0]` scores `-300000000`, yet the stored cell keeps
the sentinel score `-100000000` and a `None` predecessor. -/
theorem C1_sentinel_floor_eval :
    (NWsolve [['A'], []] ⟨5, -2, -300000000, 0⟩).map (fun m => m [1, 0]) =
      .ok (some ⟨none, -100000000⟩) ∧
    (generatemoves ['A', '_']).map
        (fun mv => (0 : Int) + ((getallpairs mv).map (scorePair ⟨5, -2, -300000000, 0⟩)).sum) =
      [-300000000] ∧
    (-100000000 : Int) ≠ -300000000 := by
  refine ⟨by rfl, by rfl, by decide⟩

/-- C2: The engine's far-corner score is claimed to agree with the classical
two-sequence Needleman–Wunsch reference for every choice of weights.  With
`gap = -200000000` the reference value for aligning `"A"` against the empty
sequence is `-200000000`, but the engine stores the sentinel `-100000000` at
the far corner (and no predecessor, so no traceback exists either). -/
theorem C2_reference_divergence_eval :
    (NWsolve [['A'], []] ⟨5, -2, -200000000, 0⟩).map (fun m => m [1, 0]) =
      .ok (some ⟨none, -100000000⟩) ∧
    refNW ⟨5, -2, -200000000, 0⟩ ['A'] [] 1 0 = -200000000 ∧
    (-100000000 : Int) ≠ -200000000 := by
  refine ⟨by rfl, by simp [refNW], by decide⟩

/-- The not-solved branch of `NW.__str__` is dead code: the successful
dereference guarding it contradicts the `None` test it performs. -/
theorem NWstr_never_notSolved (seqs : Seqs) (m : AMatrix) :
    NWstr seqs m ≠ .ok .notSolved := by
  unfold NWstr
  cases h1 : retrievematrixelement m (seqs.map List.length) with
  | none => simp
  | some sc =>
    cases h2 : tracebackLoop m (zeroC seqs) ((seqs.map List.length).sum + 1)
        (seqs.map List.length) [] with
    | error e => simp [h2, Bind.bind, Except.bind]
    | ok r => simp [h2, Bind.bind, Except.bind, Pure.pure, Except.pure]

/-- C4: Querying the textual report before `solve()` is claimed to fail with a
`NotSolved` condition.  In `NW.__str__` the far-corner cell's `.score` is
dereferenced for the header line before the `None` check, so on a freshly
constructed (unsolved) engine the call raises `AttributeError` instead of
reaching the not-solved branch, which is dead code on every input. -/
theorem C4_unsolved_str_eval :
    NWstr [['A'], ['A']] (initMatrix [['A'], ['A']]) = .error .attributeError ∧
    (∀ m : AMatrix, NWstr [['A'], ['A']] m ≠ .ok .notSolved) := by
  exact ⟨by rfl, fun m => NWstr_never_notSolved [['A'], ['A']] m⟩

/-- C5: A zero-length sequence is claimed to be harmless.  When the FIRST
sequence is empty the initial counter `[1, 0, ...]` is already out of range in
dimension 0, and the first `generatebasepairs` call raises `IndexError`; the
same input with the empty sequence second solves fine, confirming the claim's
intent for every other position. -/
theorem C5_empty_first_sequence_eval :
    NWsolve [[], ['A']] {} = .error .indexError ∧
    (NWsolve [['A'], []] {}).map (fun m => m [1, 0]) = .ok (some ⟨some [0, 0], -4⟩) := by
  exact ⟨by rfl, by rfl⟩

/-- C6 counterexample: the claim says `solve()` on fewer than 2 sequences
fails with an `InvalidInput` condition and attempts no computation.  In fact
the engine has no input-count check at all: on the single sequence `"A"` it
runs to completion without any error and fills the matrix. -/
theorem C6_solve_single_sequence_counterexample :
    (∀ e : PyErr, NWsolve [['A']] {} ≠ .error e) ∧
    ∃ m : AMatrix, NWsolve [['A']] {} = .ok m ∧ m [1] = some ⟨some [0], 0⟩ := by
  have h : ∃ m : AMatrix, NWsolve [['A']] {} = .ok m ∧ m [1] = some ⟨some [0], 0⟩ :=
    ⟨_, rfl, rfl⟩
  obtain ⟨m, hm, hv⟩ := h
  exact ⟨fun e he => by rw [hm] at he; exact Except.noConfusion he, ⟨m, hm, hv⟩⟩

/-- C6 (amended): the fewer-than-2-sequences guard lives in the command-line
entry point `main`, which prints a user message and returns before any engine
is constructed or any computation is attempted; the engine's `solve()` itself
performs no input-count check. -/
theorem C6_main_refuses_short_input (seqs : Seqs) (cfg : Config)
    (h : seqs.length < 2) : mainNW seqs cfg = .ok .refused := by
  unfold mainNW
  rw [if_pos (by omega)]
  rfl

theorem C6_main_refuses_short_input_witness :
    ([['A']] : Seqs).length < 2 ∧ mainNW [['A']] {} = .ok .refused :=
  ⟨by decide, C6_main_refuses_short_input [['A']] {} (by decide)⟩

theorem getD_map_length (seqs : Seqs) (x : Nat) :
    (seqs.map List.length).getD x 0 = (seqs.getD x []).length := by
  induction seqs generalizing x with
  | nil => simp
  | cons s ss ih =>
    cases x with
    | zero => simp
    | succ x2 => simpa using ih x2

theorem length_carryStep (seqs : Seqs) (c : List Nat) (x : Nat) :
    (carryStep seqs c x).length = c.length := by
  unfold carryStep; split <;> simp

theorem length_foldl_carry (seqs : Seqs) (l : List Nat) (c : List Nat) :
    (l.foldl (carryStep seqs) c).length = c.length := by
  induction l generalizing c with
  | nil => rfl
  | cons a t ih => rw [List.foldl_cons, ih, length_carryStep]

theorem length_increase (seqs : Seqs) (c : Coord) :
    (increase seqs c).length = c.length := by
  unfold increase; rw [length_foldl_carry]; simp

theorem carryStep_cons (s : List Char) (ss : Seqs) (h : Nat) (t : List Nat) (x : Nat) :
    carryStep (s :: ss) (h :: t) (x + 1) = h :: carryStep ss t x := by
  unfold carryStep
  by_cases hc : t.getD x 0 = (ss.getD x []).length + 1
  · rw [if_pos (by simpa using hc), if_pos hc]
    simp [List.set]
  · rw [if_neg (by simpa using hc), if_neg hc]

theorem foldl_carry_shift (s : List Char) (ss : Seqs) (h : Nat) (t : List Nat)
    (l : List Nat) :
    l.foldl (fun acc x => carryStep (s :: ss) acc (x + 1)) (h :: t) =
      h :: l.foldl (carryStep ss) t := by
  induction l generalizing t with
  | nil => rfl
  | cons a l2 ih => rw [List.foldl_cons, List.foldl_cons, carryStep_cons]; exact ih _

theorem foldl_carry_id (seqs : Seqs) (c : List Nat) (l : List Nat)
    (h : ∀ x ∈ l, c.getD x 0 ≠ (seqs.getD x []).length + 1) :
    l.foldl (carryStep seqs) c = c := by
  induction l with
  | nil => rfl
  | cons a t ih =>
    rw [List.foldl_cons]
    have hstep : carryStep seqs c a = c := by
      unfold carryStep; rw [if_neg (h a (by simp))]
    rw [hstep]
    exact ih (fun x hx => h x (by simp [hx]))

theorem increase_single (s : List Char) (a : Nat) (cs : List Nat) :
    increase [s] (a :: cs) = (a + 1) :: cs := by
  unfold increase
  simp [List.set]

theorem increase_cons_of_ne (s : List Char) (ss : Seqs) (a : Nat) (cs : List Nat)
    (ha : a ≠ s.length)
    (hcs : ∀ x, cs.getD x 0 ≠ (ss.getD x []).length + 1) :
    increase (s :: ss) (a :: cs) = (a + 1) :: cs := by
  unfold increase
  cases ss with
  | nil => simp [List.set]
  | cons s2 ss2 =>
    have hlen : (s :: s2 :: ss2 : Seqs).length - 1 = (s2 :: ss2 : Seqs).length := by simp
    rw [hlen]
    have hinit : (a :: cs).set 0 ((a :: cs).getD 0 0 + 1) = (a + 1) :: cs := by
      simp [List.set]
    rw [hinit]
    simp only [List.length_cons]
    rw [List.range_succ_eq_map, List.foldl_cons]
    have h0 : carryStep (s :: s2 :: ss2) ((a + 1) :: cs) 0 = (a + 1) :: cs := by
      unfold carryStep
      rw [if_neg (by simpa using fun hcontra => ha (by omega))]
    rw [h0, List.foldl_map]
    simp only [Nat.succ_eq_add_one]
    rw [foldl_carry_shift]
    rw [foldl_carry_id (s2 :: ss2) cs _ (fun x _ => hcs x)]

theorem increase_cons_of_carry (s : List Char) (ss : Seqs) (cs : List Nat)
    (hss : ss ≠ []) :
    increase (s :: ss) (s.length :: cs) = 0 :: increase ss cs := by
  unfold increase
  cases ss with
  | nil => cases hss rfl
  | cons s2 ss2 =>
    have hlen : (s :: s2 :: ss2 : Seqs).length - 1 = (s2 :: ss2 : Seqs).length := by simp
    rw [hlen]
    have hinit : (s.length :: cs).set 0 ((s.length :: cs).getD 0 0 + 1) =
        (s.length + 1) :: cs := by simp [List.set]
    rw [hinit]
    simp only [List.length_cons]
    rw [List.range_succ_eq_map, List.foldl_cons]
    have h0 : carryStep (s :: s2 :: ss2) ((s.length + 1) :: cs) 0 =
        0 :: cs.set 0 (cs.getD 0 0 + 1) := by
      unfold carryStep
      rw [if_pos (by simp)]
      simp [List.set]
    rw [h0, List.foldl_map]
    simp only [Nat.succ_eq_add_one]
    rw [foldl_carry_shift]
    have hlen2 : (s2 :: ss2 : Seqs).length - 1 = (ss2 : Seqs).length := by simp
    rfl

theorem mem_lattice_iff (lens : List Nat) (c : Coord) :
    c ∈ lattice lens ↔ List.Forall₂ (fun u L => u ≤ L) c lens := by
  induction lens generalizing c with
  | nil =>
    simp only [lattice, List.mem_singleton]
    constructor
    · rintro rfl; exact List.Forall₂.nil
    · intro h; cases h; rfl
  | cons L ls ih =>
    simp only [lattice, List.mem_flatMap, List.mem_map, List.mem_range]
    constructor
    · rintro ⟨r, hr, i, hi, rfl⟩
      exact List.Forall₂.cons (by omega) ((ih r).mp hr)
    · intro h
      cases h with
      | cons hab htail => exact ⟨_, (ih _).mpr htail, _, by omega, rfl⟩

theorem forall₂_le_getD {c lens : List Nat}
    (h : List.Forall₂ (fun u L => u ≤ L) c lens) (x : Nat) :
    c.getD x 0 ≤ lens.getD x 0 := by
  induction h generalizing x with
  | nil => simp
  | cons hab htail ih =>
    cases x with
    | zero => simpa using hab
    | succ x2 => simpa using ih x2

theorem forall₂_le_getLast {c lens : List Nat}
    (h : List.Forall₂ (fun u L => u ≤ L) c lens) :
    c.getLast?.getD 0 ≤ lens.getLast?.getD 0 := by
  induction c generalizing lens with
  | nil => cases h; simp
  | cons a t ih =>
    cases h with
    | cons hab htail =>
      rename_i b l2
      cases t with
      | nil => cases htail; simpa using hab
      | cons a2 t2 =>
        cases htail with
        | cons h2 h3 =>
          rw [List.getLast?_cons_cons, List.getLast?_cons_cons]
          exact ih (List.Forall₂.cons h2 h3)

theorem lattice_head_structure (lens : List Nat) :
    ∃ t, lattice lens = List.replicate lens.length 0 :: t := by
  induction lens with
  | nil => exact ⟨[], rfl⟩
  | cons L ls ih =>
    obtain ⟨t0, ht0⟩ := ih
    rw [show lattice (L :: ls) =
      (lattice ls).flatMap (fun r => (List.range (L + 1)).map (fun i => i :: r)) from rfl]
    rw [ht0, List.flatMap_cons, List.range_succ_eq_map, List.map_cons]
    exact ⟨_, rfl⟩

theorem lattice_ne_nil (lens : List Nat) : lattice lens ≠ [] := by
  obtain ⟨t, ht⟩ := lattice_head_structure lens
  simp [ht]

theorem getLast?_flatMap_ne (f : α → List β) (l : List α) (hn : l ≠ [])
    (hf : ∀ a ∈ l, f a ≠ []) :
    (l.flatMap f).getLast? = (f (l.getLast hn)).getLast? := by
  induction l with
  | nil => cases hn rfl
  | cons a t ih =>
    cases t with
    | nil => simp [List.flatMap_cons]
    | cons b t2 =>
      rw [List.flatMap_cons, List.getLast?_append]
      rw [ih (by simp) (fun x hx => hf x (List.mem_cons_of_mem a hx))]
      rw [List.getLast?_eq_getLast _ (hf _ (by
        exact List.mem_cons_of_mem a (List.getLast_mem (by simp))))]
      have hor : ∀ (x : β) (o : Option β), (some x).or o = some x := fun x o => rfl
      rw [hor]
      have hgl : (a :: b :: t2).getLast hn = (b :: t2).getLast (by simp) :=
        List.getLast_cons (by simp)
      rw [hgl, List.getLast?_eq_getLast]

theorem lattice_getLast? (lens : List Nat) :
    (lattice lens).getLast? = some lens := by
  induction lens with
  | nil => rfl
  | cons L ls ih =>
    rw [show lattice (L :: ls) =
      (lattice ls).flatMap (fun r => (List.range (L + 1)).map (fun i => i :: r)) from rfl]
    rw [getLast?_flatMap_ne _ _ (lattice_ne_nil ls) (fun a _ => by simp)]
    have hlast : (lattice ls).getLast (lattice_ne_nil ls) = ls := by
      have h2 := List.getLast?_eq_getLast (lattice ls) (lattice_ne_nil ls)
      rw [ih] at h2
      exact (Option.some_inj.mp h2).symm
    rw [hlast]
    rw [List.range_succ, List.map_append]
    simp

theorem lattice_chain (seqs : Seqs) :
    List.Chain' (fun a b => increase seqs a = b) (lattice (seqs.map List.length)) := by
  induction seqs with
  | nil => exact List.chain'_singleton _
  | cons s ss ih =>
    rw [show (s :: ss : Seqs).map List.length = s.length :: ss.map List.length from rfl]
    rw [show lattice (s.length :: ss.map List.length) = ((lattice (ss.map List.length)).map
      (fun r => (List.range (s.length + 1)).map (fun i => i :: r))).flatten from by
      rw [lattice, List.flatMap_def]]
    have hnot : [] ∉ (lattice (ss.map List.length)).map
        (fun r => (List.range (s.length + 1)).map (fun i => i :: r)) := by
      intro hmem
      rw [List.mem_map] at hmem
      obtain ⟨r, _, hr⟩ := hmem
      exact absurd hr.symm (by simp)
    rw [List.chain'_flatten hnot]
    constructor
    · intro l hl
      rw [List.mem_map] at hl
      obtain ⟨r, hr, rfl⟩ := hl
      rw [List.chain'_map, List.chain'_range_succ]
      intro m hm
      apply increase_cons_of_ne s ss m r (by omega)
      intro x
      have hb := forall₂_le_getD ((mem_lattice_iff _ _).mp hr) x
      rw [getD_map_length] at hb
      omega
    · rw [List.chain'_map]
      cases ss with
      | nil =>
        rw [show lattice (([] : Seqs).map List.length) = [[]] from rfl]
        exact List.chain'_singleton _
      | cons s2 ss2 =>
        refine List.Chain'.imp ?_ ih
        intro r r' hrr x hx y hy
        have hxl : ((List.range (s.length + 1)).map (fun i => i :: r)).getLast? =
            some (s.length :: r) := by
          rw [List.range_succ, List.map_append]
          simp
        have hyh : ((List.range (s.length + 1)).map (fun i => i :: r')).head? =
            some (0 :: r') := by
          rw [List.range_succ_eq_map, List.map_cons]
          rfl
        rw [hxl] at hx
        rw [hyh] at hy
        cases hx
        cases hy
        rw [increase_cons_of_carry s (s2 :: ss2) r (by simp), hrr]

theorem lattice_no_exit (seqs : Seqs) (c : Coord)
    (hc : c ∈ lattice (seqs.map List.length)) : ¬ exitCond seqs c := by
  intro hexit
  have h1 := forall₂_le_getLast ((mem_lattice_iff _ _).mp hc)
  have h2 : (seqs.map List.length).getLast?.getD 0 = (seqs.getLast?.getD []).length := by
    rw [List.getLast?_map]
    cases hlast : seqs.getLast? with
    | none => simp
    | some y => simp
  rw [h2] at h1
  unfold exitCond at hexit
  omega

theorem exit_after_far (seqs : Seqs) (hs : seqs ≠ []) :
    exitCond seqs (increase seqs (seqs.map List.length)) := by
  induction seqs with
  | nil => cases hs rfl
  | cons s ss ih =>
    cases ss with
    | nil =>
      rw [show (([s] : Seqs).map List.length) = [s.length] from rfl, increase_single]
      unfold exitCond
      simp
    | cons s2 ss2 =>
      rw [show ((s :: s2 :: ss2 : Seqs).map List.length) =
        s.length :: ((s2 :: ss2 : Seqs).map List.length) from rfl]
      rw [increase_cons_of_carry _ _ _ (by simp)]
      have hne : increase (s2 :: ss2) ((s2 :: ss2 : Seqs).map List.length) ≠ [] := by
        intro h
        have h2 := length_increase (s2 :: ss2) ((s2 :: ss2 : Seqs).map List.length)
        rw [h] at h2
        simp at h2
      have hexit := ih (by simp)
      unfold exitCond at hexit ⊢
      obtain ⟨y, ys, hys⟩ := List.exists_cons_of_ne_nil hne
      rw [hys] at hexit ⊢
      rw [List.getLast?_cons_cons]
      rw [show (s :: s2 :: ss2 : Seqs).getLast? = (s2 :: ss2 : Seqs).getLast? from
        List.getLast?_cons_cons]
      exact hexit

theorem lattice_length (lens : List Nat) :
    (lattice lens).length = latticeSize lens := by
  induction lens with
  | nil => rfl
  | cons L ls ih =>
    rw [show lattice (L :: ls) = (lattice ls).flatMap
      (fun r => (List.range (L + 1)).map (fun i => i :: r)) from rfl]
    rw [List.length_flatMap]
    have hmap : List.map (List.length ∘ fun r => (List.range (L + 1)).map (fun i => i :: r))
        (lattice ls) = List.replicate (lattice ls).length (L + 1) := by
      rw [← List.map_const]
      apply List.map_congr_left
      intro r _
      simp [Function.const]
    rw [hmap, List.sum_replicate, smul_eq_mul, ih]
    show latticeSize ls * (L + 1) = latticeSize (L :: ls)
    unfold latticeSize
    rw [List.map_cons, List.prod_cons]
    exact Nat.mul_comm _ _

theorem rankC_cons (L : Nat) (ls : List Nat) (a : Nat) (cs : List Nat) :
    rankC (L :: ls) (a :: cs) = a + (L + 1) * rankC ls cs := rfl

theorem forall₂_le_trans {p c lens : List Nat}
    (h1 : List.Forall₂ (fun u v => u ≤ v) p c)
    (h2 : List.Forall₂ (fun u L => u ≤ L) c lens) :
    List.Forall₂ (fun u L => u ≤ L) p lens := by
  induction h1 generalizing lens with
  | nil => cases h2; exact List.Forall₂.nil
  | cons hab htail ih =>
    cases h2 with
    | cons hbc htail2 => exact List.Forall₂.cons (le_trans hab hbc) (ih htail2)

theorem rankC_lt_of_lt {lens p c : List Nat}
    (hp : List.Forall₂ (fun u L => u ≤ L) p lens)
    (hc : List.Forall₂ (fun u L => u ≤ L) c lens)
    (hpc : List.Forall₂ (fun u v => u ≤ v) p c)
    (hne : p ≠ c) :
    rankC lens p < rankC lens c := by
  induction lens generalizing p c with
  | nil =>
    cases hp; cases hc; cases hne rfl
  | cons L ls ih =>
    cases hp with
    | cons hp1 hp2 =>
      rename_i a ps
      cases hc with
      | cons hc1 hc2 =>
        rename_i b cs
        cases hpc with
        | cons hab htail =>
          rw [rankC_cons, rankC_cons]
          by_cases heq : ps = cs
          · subst heq
            have hab2 : a ≠ b := fun h => hne (by rw [h])
            omega
          · have hlt := ih hp2 hc2 htail heq
            have hmul : (L + 1) * (rankC ls ps + 1) ≤ (L + 1) * rankC ls cs :=
              Nat.mul_le_mul_left _ hlt
            rw [Nat.mul_succ] at hmul
            omega

theorem lattice_pairwise_rank (lens : List Nat) :
    List.Pairwise (fun a b => rankC lens a < rankC lens b) (lattice lens) := by
  induction lens with
  | nil => simp [lattice]
  | cons L ls ih =>
    rw [show lattice (L :: ls) = ((lattice ls).map
      (fun r => (List.range (L + 1)).map (fun i => i :: r))).flatten from by
      rw [lattice, List.flatMap_def]]
    rw [List.pairwise_flatten]
    constructor
    · intro l hl
      rw [List.mem_map] at hl
      obtain ⟨r, hr, rfl⟩ := hl
      rw [List.pairwise_map]
      refine List.Pairwise.imp ?_ (List.pairwise_lt_range (L + 1))
      intro i j hij
      rw [rankC_cons, rankC_cons]
      omega
    · rw [List.pairwise_map]
      refine List.Pairwise.imp ?_ ih
      intro r r' hrr x hx y hy
      rw [List.mem_map] at hx hy
      obtain ⟨i, hi, rfl⟩ := hx
      obtain ⟨j, hj, rfl⟩ := hy
      rw [List.mem_range] at hi hj
      rw [rankC_cons, rankC_cons]
      have hmul : (L + 1) * (rankC ls r + 1) ≤ (L + 1) * rankC ls r' :=
        Nat.mul_le_mul_left _ hrr
      rw [Nat.mul_succ] at hmul
      omega

theorem lattice_nodup (lens : List Nat) : (lattice lens).Nodup :=
  (lattice_pairwise_rank lens).imp (fun h heq => by subst heq; omega)

theorem loopIter_eq_fillList {σ : Type} (seqs : Seqs) (body : σ → Coord → Except PyErr σ) :
    ∀ (fuel : Nat) (steps : List Coord) (c : Coord) (s : σ),
    List.Chain' (fun a b => increase seqs a = b) (c :: steps) →
    (∀ x ∈ c :: steps, ¬ exitCond seqs x) →
    exitCond seqs (increase seqs ((c :: steps).getLast (by simp))) →
    steps.length + 2 ≤ fuel →
    loopIter seqs body fuel s c = fillList body (c :: steps) s := by
  intro fuel
  induction fuel with
  | zero => intro steps c s _ _ _ h4; omega
  | succ f ih =>
    intro steps c s h1 h2 h3 h4
    rw [show loopIter seqs body (f + 1) s c =
      if exitCond seqs c then pure s
      else do
        let s' ← body s c
        loopIter seqs body f s' (increase seqs c) from rfl]
    rw [if_neg (h2 c (by simp))]
    cases steps with
    | nil =>
      cases hb : body s c with
      | error e =>
        show Except.error e >>= (loopIter seqs body f · (increase seqs c)) = _
        rw [show fillList body [c] s = body s c >>= fillList body [] from rfl, hb]
        rfl
      | ok s' =>
        show Except.ok s' >>= (loopIter seqs body f · (increase seqs c)) = _
        rw [show fillList body [c] s = body s c >>= fillList body [] from rfl, hb]
        show loopIter seqs body f s' (increase seqs c) = pure s'
        cases f with
        | zero => omega
        | succ f2 =>
          rw [show loopIter seqs body (f2 + 1) s' (increase seqs c) =
            if exitCond seqs (increase seqs c) then pure s'
            else do
              let s2 ← body s' (increase seqs c)
              loopIter seqs body f2 s2 (increase seqs (increase seqs c)) from rfl]
          rw [if_pos (by simpa using h3)]
    | cons d rest =>
      have hcd : increase seqs c = d := (List.chain'_cons.mp h1).1
      cases hb : body s c with
      | error e =>
        show Except.error e >>= (loopIter seqs body f · (increase seqs c)) = _
        rw [show fillList body (c :: d :: rest) s =
          body s c >>= fillList body (d :: rest) from rfl, hb]
        rfl
      | ok s' =>
        show Except.ok s' >>= (loopIter seqs body f · (increase seqs c)) = _
        rw [show fillList body (c :: d :: rest) s =
          body s c >>= fillList body (d :: rest) from rfl, hb]
        show loopIter seqs body f s' (increase seqs c) = fillList body (d :: rest) s'
        rw [hcd]
        apply ih rest d s' (List.chain'_cons.mp h1).2
          (fun x hx => h2 x (List.mem_cons_of_mem c hx))
        · have : ((c :: d :: rest).getLast (by simp)) = ((d :: rest).getLast (by simp)) :=
            List.getLast_cons (by simp)
          rw [← this]
          exact h3
        · simpa using Nat.lt_of_succ_le h4

theorem lattice_tail_structure (seqs : Seqs) (hs : seqs ≠ [])
    (h0 : 0 < (seqs.headD []).length) :
    ∃ steps, lattice (seqs.map List.length) =
      zeroC seqs :: initCounter seqs :: steps := by
  cases seqs with
  | nil => cases hs rfl
  | cons s ss =>
    obtain ⟨t0, ht0⟩ := lattice_head_structure (ss.map List.length)
    rw [show (s :: ss : Seqs).map List.length = s.length :: ss.map List.length from rfl]
    rw [show lattice (s.length :: ss.map List.length) =
      (lattice (ss.map List.length)).flatMap
        (fun r => (List.range (s.length + 1)).map (fun i => i :: r)) from rfl]
    rw [ht0, List.flatMap_cons]
    obtain ⟨L2, hL2⟩ : ∃ L2, s.length = L2 + 1 := ⟨s.length - 1, by simp at h0; omega⟩
    rw [hL2, List.range_succ_eq_map, List.range_succ_eq_map]
    simp only [List.map_cons, List.cons_append, List.length_map]
    apply Exists.intro
    simp only [initCounter, zeroC, List.length_cons, Nat.add_sub_cancel,
      List.replicate_succ]
    rfl

theorem trav_props (seqs : Seqs) (hs : seqs ≠ []) (h0 : 0 < (seqs.headD []).length) :
    ∃ steps, lattice (seqs.map List.length) = zeroC seqs :: initCounter seqs :: steps ∧
      List.Chain' (fun a b => increase seqs a = b) (initCounter seqs :: steps) ∧
      (∀ x ∈ initCounter seqs :: steps, ¬ exitCond seqs x) ∧
      exitCond seqs (increase seqs ((initCounter seqs :: steps).getLast (by simp))) ∧
      steps.length + 2 = latticeSize (seqs.map List.length) := by
  obtain ⟨steps, hsteps⟩ := lattice_tail_structure seqs hs h0
  refine ⟨steps, hsteps, ?_, ?_, ?_, ?_⟩
  · have hch := lattice_chain seqs
    rw [hsteps] at hch
    exact hch.tail
  · intro x hx
    apply lattice_no_exit seqs x
    rw [hsteps]
    exact List.mem_cons_of_mem _ hx
  · have hlast : (initCounter seqs :: steps).getLast (by simp) = seqs.map List.length := by
      have h2 := lattice_getLast? (seqs.map List.length)
      rw [hsteps] at h2
      have h3 : (zeroC seqs :: initCounter seqs :: steps).getLast (by simp) =
          (initCounter seqs :: steps).getLast (by simp) := List.getLast_cons (by simp)
      rw [List.getLast?_eq_getLast _ (by simp), h3] at h2
      exact Option.some_inj.mp h2
    rw [hlast]
    exact exit_after_far seqs hs
  · have hlen := lattice_length (seqs.map List.length)
    rw [hsteps] at hlen
    simp at hlen
    omega

theorem NWsolve_eq_fillList (seqs : Seqs) (cfg : Config) (hs : seqs ≠ [])
    (h0 : 0 < (seqs.headD []).length) :
    NWsolve seqs cfg =
      fillList (NWbody seqs cfg) (lattice (seqs.map List.length)).tail (initMatrix seqs) := by
  obtain ⟨steps, h1, h2, h3, h4, h5⟩ := trav_props seqs hs h0
  rw [h1]
  unfold NWsolve
  exact loopIter_eq_fillList seqs _ _ steps _ _ h2 h3 h4 (by omega)

theorem SWsolve_eq_fillList (seqs : Seqs) (cfg : Config) (hs : seqs ≠ [])
    (h0 : 0 < (seqs.headD []).length) :
    SWsolve seqs cfg =
      fillList (SWbody seqs cfg) (lattice (seqs.map List.length)).tail
        (initMatrix seqs, (0, zeroC seqs)) := by
  obtain ⟨steps, h1, h2, h3, h4, h5⟩ := trav_props seqs hs h0
  rw [h1]
  unfold SWsolve
  exact loopIter_eq_fillList seqs _ _ steps _ _ h2 h3 h4 (by omega)

theorem bestFold_cons (f : α → Int) (g : α → β) (init : Int × β) (a : α) (t : List α) :
    bestFold f g init (a :: t) =
      bestFold f g (if f a > init.1 then (f a, g a) else init) t := rfl

theorem bestFold_fst_ge (f : α → Int) (g : α → β) (init : Int × β) (l : List α) :
    init.1 ≤ (bestFold f g init l).1 := by
  induction l generalizing init with
  | nil => exact le_refl _
  | cons a t ih =>
    rw [bestFold_cons]
    by_cases hc : f a > init.1
    · rw [if_pos hc]
      exact le_trans (le_of_lt hc) (ih _)
    · rw [if_neg hc]
      exact ih _

theorem bestFold_fst (f : α → Int) (g : α → β) (init : Int × β) (l : List α) :
    (bestFold f g init l).1 = l.foldl (fun b v => max b (f v)) init.1 := by
  induction l generalizing init with
  | nil => rfl
  | cons a t ih =>
    rw [bestFold_cons, List.foldl_cons, ih]
    congr 1
    by_cases hc : f a > init.1
    · rw [if_pos hc]
      exact (max_eq_right (le_of_lt hc)).symm
    · rw [if_neg hc]
      exact (max_eq_left (by omega)).symm

theorem bestFold_eq_init (f : α → Int) (g : α → β) (init : Int × β) (l : List α)
    (h : (bestFold f g init l).1 = init.1) : bestFold f g init l = init := by
  induction l generalizing init with
  | nil => rfl
  | cons a t ih =>
    rw [bestFold_cons] at h ⊢
    by_cases hc : f a > init.1
    · exfalso
      rw [if_pos hc] at h
      have h1 := bestFold_fst_ge f g (f a, g a) t
      simp only at h1
      omega
    · rw [if_neg hc] at h ⊢
      exact ih _ h

theorem bestFold_attained (f : α → Int) (g : α → β) (init : Int × β) (l : List α)
    (h : init.1 < (bestFold f g init l).1) :
    ∃ v, l.find? (fun v => decide (f v = (bestFold f g init l).1)) = some v ∧
      bestFold f g init l = (f v, g v) := by
  induction l generalizing init with
  | nil => exact absurd h (by simp [bestFold])
  | cons a t ih =>
    rw [bestFold_cons] at h ⊢
    by_cases hc : f a > init.1
    · rw [if_pos hc] at h ⊢
      by_cases h2 : (bestFold f g (f a, g a) t).1 = (f a, g a).1
      · have h3 := bestFold_eq_init f g (f a, g a) t h2
        rw [h3]
        exact ⟨a, List.find?_cons_of_pos _ (by simp), rfl⟩
      · have h4 : (f a, g a).1 < (bestFold f g (f a, g a) t).1 :=
          lt_of_le_of_ne (bestFold_fst_ge f g (f a, g a) t) (fun hx => h2 hx.symm)
        obtain ⟨v, hv1, hv2⟩ := ih (f a, g a) h4
        refine ⟨v, ?_, hv2⟩
        rw [List.find?_cons_of_neg _ (by
          simp only [decide_eq_true_eq]
          intro hax
          rw [hv2] at hax h2
          simp only at hax h2
          exact h2 hax.symm)]
        exact hv1
    · rw [if_neg hc] at h ⊢
      obtain ⟨v, hv1, hv2⟩ := ih init h
      refine ⟨v, ?_, hv2⟩
      rw [List.find?_cons_of_neg _ (by
        simp only [decide_eq_true_eq]
        intro hax
        rw [← hax] at h
        omega)]
      exact hv1

theorem bestFold_snd_cases (f : α → Int) (g : α → β) (init : Int × β) (l : List α) :
    (bestFold f g init l).2 = init.2 ∨ ∃ v ∈ l, (bestFold f g init l).2 = g v := by
  induction l generalizing init with
  | nil => exact Or.inl rfl
  | cons a t ih =>
    rw [bestFold_cons]
    by_cases hc : f a > init.1
    · rw [if_pos hc]
      cases ih (f a, g a) with
      | inl h => exact Or.inr ⟨a, by simp, h⟩
      | inr h =>
        obtain ⟨v, hv, h2⟩ := h
        exact Or.inr ⟨v, by simp [hv], h2⟩
    · rw [if_neg hc]
      cases ih init with
      | inl h => exact Or.inl h
      | inr h =>
        obtain ⟨v, hv, h2⟩ := h
        exact Or.inr ⟨v, by simp [hv], h2⟩

theorem bestFold_map (f : α → Int) (g : α → β) (h : γ → α) (init : Int × β) (l : List γ) :
    bestFold f g init (l.map h) = bestFold (fun v => f (h v)) (fun v => g (h v)) init l := by
  unfold bestFold
  rw [List.foldl_map]

theorem bestFold_append (f : α → Int) (g : α → β) (init : Int × β) (l1 l2 : List α) :
    bestFold f g init (l1 ++ l2) = bestFold f g (bestFold f g init l1) l2 := by
  unfold bestFold
  rw [List.foldl_append]

theorem foldlM_moveFold_ok (cfg : Config) (m : AMatrix) (c : Coord) (l : List (List Char))
    (h : ∀ mv ∈ l, m (generatecoordinates mv c) ≠ none) (init : Int × Option Coord) :
    l.foldlM (moveFold cfg m c) init =
      pure (bestFold (candScore m cfg c)
        (fun mv => some (generatecoordinates mv c)) init l) := by
  induction l generalizing init with
  | nil => rfl
  | cons a t ih =>
    rw [List.foldlM_cons]
    cases hm : m (generatecoordinates a c) with
    | none => exact absurd hm (h a (by simp))
    | some sc =>
      have hstep : moveFold cfg m c init a =
          pure (if candScore m cfg c a > init.1
            then (candScore m cfg c a, some (generatecoordinates a c)) else init) := by
        simp [moveFold, retrievematrixelement, candScore, hm]
        try (split <;> rfl)
      rw [hstep, pure_bind, ih (fun mv hmv => h mv (by simp [hmv])), bestFold_cons]

theorem foldlM_swFold_ok (cfg : Config) (m : AMatrix) (c : Coord) (l : List (List Char))
    (h : ∀ mv ∈ l, m (generatecoordinates mv c) ≠ none)
    (init : (Int × Option Coord) × (Int × Coord)) :
    l.foldlM (swMoveFold cfg m c) init =
      pure (bestFold (candScore m cfg c)
          (fun mv => some (generatecoordinates mv c)) init.1 l,
        bestFold (candScore m cfg c) (fun _ => c) init.2 l) := by
  induction l generalizing init with
  | nil => rfl
  | cons a t ih =>
    rw [List.foldlM_cons]
    cases hm : m (generatecoordinates a c) with
    | none => exact absurd hm (h a (by simp))
    | some sc =>
      have hstep : swMoveFold cfg m c init a =
          pure (if candScore m cfg c a > init.1.1
              then (candScore m cfg c a, some (generatecoordinates a c)) else init.1,
            if candScore m cfg c a > init.2.1 then (candScore m cfg c a, c) else init.2) := by
        simp [swMoveFold, retrievematrixelement, candScore, hm]
      rw [hstep, pure_bind, ih (fun mv hmv => h mv (by simp [hmv])),
        bestFold_cons, bestFold_cons]

theorem NWbody_ok (seqs : Seqs) (cfg : Config) (m : AMatrix) (c : Coord)
    (hbp : generatebasepairs seqs c = .ok (basepairsP seqs c))
    (hpred : ∀ mv ∈ generatemoves (basepairsP seqs c),
      m (generatecoordinates mv c) ≠ none) :
    NWbody seqs cfg m c = .ok (enterelement m c
      ⟨(cellBest m cfg seqs c (-100000000, none)).2,
        (cellBest m cfg seqs c (-100000000, none)).1⟩) := by
  unfold NWbody
  rw [hbp]
  show (generatemoves (basepairsP seqs c)).foldlM (moveFold cfg m c) (-100000000, none) >>=
    (fun best => pure (enterelement m c ⟨best.2, best.1⟩)) = _
  rw [foldlM_moveFold_ok cfg m c _ hpred, pure_bind]
  rfl

theorem SWbody_ok (seqs : Seqs) (cfg : Config) (m : AMatrix) (best : Int × Coord) (c : Coord)
    (hbp : generatebasepairs seqs c = .ok (basepairsP seqs c))
    (hpred : ∀ mv ∈ generatemoves (basepairsP seqs c),
      m (generatecoordinates mv c) ≠ none) :
    SWbody seqs cfg (m, best) c = .ok (enterelement m c
        ⟨(cellBest m cfg seqs c (0, none)).2, (cellBest m cfg seqs c (0, none)).1⟩,
      bestFold Prod.snd Prod.fst best (cellCands m cfg seqs c)) := by
  unfold SWbody
  rw [hbp]
  show (generatemoves (basepairsP seqs c)).foldlM (swMoveFold cfg m c) ((0, none), best) >>=
    (fun r => pure (enterelement m c ⟨r.1.2, r.1.1⟩, r.2)) = _
  rw [foldlM_swFold_ok cfg m c _ hpred, pure_bind]
  unfold cellCands
  rw [bestFold_map]
  rfl

theorem generatebasepairsAux_ok (seqs : Seqs) :
    ∀ (x : List Nat) (v : Nat),
    List.Forall₂ (fun u s => u ≤ List.length s) x (seqs.drop v) →
    generatebasepairsAux seqs x v =
      .ok (List.zipWith (fun u s => if u = 0 then '_' else s.getD (u - 1) '?')
        x (seqs.drop v)) := by
  intro x
  induction x with
  | nil => intro v h; rfl
  | cons u us ih =>
    intro v h
    cases hd : seqs.drop v with
    | nil => rw [hd] at h; cases h
    | cons s rest =>
      rw [hd] at h
      cases h with
      | cons h1 h2 =>
        have hrest : seqs.drop (v + 1) = rest := by
          have hdd := List.drop_drop 1 v seqs
          rw [hd] at hdd
          simpa using hdd.symm
        have hih := ih (v + 1) (by rw [hrest]; exact h2)
        rw [hrest] at hih
        by_cases hu : u = 0
        · subst hu
          show (do
            let r ← generatebasepairsAux seqs us (v + 1)
            pure ('_' :: r)) = _
          rw [hih]
          rw [List.zipWith_cons_cons, if_pos rfl]
          rfl
        · have hgets : seqs.get? v = some s := by
            rw [List.get?_eq_getElem?]
            have hdrop := List.getElem?_drop seqs v 0
            rw [hd] at hdrop
            simpa using hdrop.symm
          have hlt : u - 1 < s.length := by omega
          have hgetc : s.get? (u - 1) = some (s.getD (u - 1) '?') := by
            rw [List.get?_eq_getElem?, List.getD_eq_getElem s '?' hlt,
              List.getElem?_eq_getElem hlt]
          have hstep : generatebasepairsAux seqs (u :: us) v = (do
              let r ← generatebasepairsAux seqs us (v + 1)
              pure (s.getD (u - 1) '?' :: r)) := by
            conv_lhs => rw [generatebasepairsAux]
            rw [if_neg hu, hgets]
            show (match s.get? (u - 1) with
              | none => throw PyErr.indexError
              | some ch => do
                let rest ← generatebasepairsAux seqs us (v + 1)
                pure (ch :: rest)) = _
            rw [hgetc]
          rw [hstep, hih]
          rw [List.zipWith_cons_cons, if_neg hu]
          rfl

theorem generatebasepairs_ok (seqs : Seqs) (x : Coord)
    (h : List.Forall₂ (fun u L => u ≤ L) x (seqs.map List.length)) :
    generatebasepairs seqs x = .ok (basepairsP seqs x) := by
  have h2 : List.Forall₂ (fun u s => u ≤ List.length s) x seqs :=
    List.forall₂_map_right_iff.mp h
  have h3 := generatebasepairsAux_ok seqs x 0 (by simpa using h2)
  simpa [generatebasepairs, basepairsP] using h3

theorem foldl_movesStep_shape (rest : List Char) :
    ∀ (acc : List (List Char)) (pfx : List Char),
    (∀ y ∈ acc, List.Forall₂ (fun mc bc => mc = '_' ∨ mc = bc) y pfx) →
    ∀ y ∈ rest.foldl movesStep acc,
      List.Forall₂ (fun mc bc => mc = '_' ∨ mc = bc) y (pfx ++ rest) := by
  induction rest with
  | nil => intro acc pfx h y hy; simpa using h y hy
  | cons c rest2 ih =>
    intro acc pfx h y hy
    rw [List.foldl_cons] at hy
    have hstep : ∀ z ∈ movesStep acc c,
        List.Forall₂ (fun mc bc => mc = '_' ∨ mc = bc) z (pfx ++ [c]) := by
      intro z hz
      unfold movesStep at hz
      by_cases hc : c = '_'
      · rw [if_pos hc] at hz
        rw [List.mem_map] at hz
        obtain ⟨y0, hy0, rfl⟩ := hz
        exact List.rel_append (h y0 hy0) (List.Forall₂.cons (Or.inl rfl) List.Forall₂.nil)
      · rw [if_neg hc, List.mem_append, List.mem_map, List.mem_map] at hz
        cases hz with
        | inl hz2 =>
          obtain ⟨y0, hy0, rfl⟩ := hz2
          exact List.rel_append (h y0 hy0) (List.Forall₂.cons (Or.inr rfl) List.Forall₂.nil)
        | inr hz2 =>
          obtain ⟨y0, hy0, rfl⟩ := hz2
          exact List.rel_append (h y0 hy0) (List.Forall₂.cons (Or.inl rfl) List.Forall₂.nil)
    have hres := ih (movesStep acc c) (pfx ++ [c]) hstep y hy
    rwa [List.append_assoc, List.singleton_append] at hres

theorem foldl_movesStep_count (rest : List Char) :
    ∀ (acc : List (List Char)) (k : Nat),
    (∀ y ∈ acc, y.length = k) →
    List.count (List.replicate k '_') acc = 1 →
    List.count (List.replicate (k + rest.length) '_') (rest.foldl movesStep acc) = 1 := by
  induction rest with
  | nil => intro acc k _ hcount; simpa using hcount
  | cons c rest2 ih =>
    intro acc k hlen hcount
    rw [List.foldl_cons]
    have hlen2 : ∀ y ∈ movesStep acc c, y.length = k + 1 := by
      intro y hy
      unfold movesStep at hy
      by_cases hc : c = '_'
      · rw [if_pos hc, List.mem_map] at hy
        obtain ⟨y0, hy0, rfl⟩ := hy
        simp [hlen y0 hy0]
      · rw [if_neg hc, List.mem_append, List.mem_map, List.mem_map] at hy
        cases hy with
        | inl hy2 => obtain ⟨y0, hy0, rfl⟩ := hy2; simp [hlen y0 hy0]
        | inr hy2 => obtain ⟨y0, hy0, rfl⟩ := hy2; simp [hlen y0 hy0]
    have hcount2 : List.count (List.replicate (k + 1) '_') (movesStep acc c) = 1 := by
      unfold movesStep
      by_cases hc : c = '_'
      · rw [if_pos hc]
        rw [List.count_eq_countP, List.countP_map]
        rw [show List.countP ((fun x => x == List.replicate (k + 1) '_') ∘
            fun y => y ++ ['_']) acc = List.countP (fun x => x == List.replicate k '_') acc
          from List.countP_congr (by
            intro y hy
            simp only [Function.comp_apply, beq_iff_eq]
            rw [List.replicate_succ']
            constructor
            · intro hx; exact List.append_cancel_right hx
            · intro hx; rw [hx])]
        rw [← List.count_eq_countP]
        exact hcount
      · rw [if_neg hc, List.count_append]
        have hzero : List.count (List.replicate (k + 1) '_')
            (acc.map (fun y => y ++ [c])) = 0 := by
          rw [List.count_eq_countP, List.countP_eq_zero]
          intro y hy
          rw [List.mem_map] at hy
          obtain ⟨y0, hy0, rfl⟩ := hy
          simp only [beq_iff_eq, List.replicate_succ']
          intro hx
          have hcd : [c] = ['_'] := List.append_inj_right hx (by simp [hlen y0 hy0])
          exact hc (by simpa using hcd)
        rw [hzero]
        rw [List.count_eq_countP, List.countP_map]
        rw [show List.countP ((fun x => x == List.replicate (k + 1) '_') ∘
            fun y => y ++ ['_']) acc = List.countP (fun x => x == List.replicate k '_') acc
          from List.countP_congr (by
            intro y hy
            simp only [Function.comp_apply, beq_iff_eq]
            rw [List.replicate_succ']
            constructor
            · intro hx; exact List.append_cancel_right hx
            · intro hx; rw [hx])]
        rw [← List.count_eq_countP]
        omega
    have := ih (movesStep acc c) (k + 1) hlen2 hcount2
    rw [show k + (c :: rest2).length = k + 1 + rest2.length by simp; omega]
    exact this

theorem generatemoves_shape (b : List Char) (mv : List Char) (h : mv ∈ generatemoves b) :
    List.Forall₂ (fun mc bc => mc = '_' ∨ mc = bc) mv b ∧
    mv ≠ List.replicate b.length '_' := by
  cases b with
  | nil => cases h
  | cons c rest =>
    unfold generatemoves at h
    have hmem := List.mem_of_mem_erase h
    have hinit : ∀ y ∈ (if c ≠ '_' then [[c], ['_']] else [[c]]),
        List.Forall₂ (fun mc bc => mc = '_' ∨ mc = bc) y [c] := by
      by_cases hc : c = '_'
      · rw [if_neg (by simp [hc])]
        intro y hy
        simp only [List.mem_singleton] at hy
        subst hy
        exact List.Forall₂.cons (Or.inr rfl) List.Forall₂.nil
      · rw [if_pos hc]
        intro y hy
        simp only [List.mem_cons, List.mem_singleton, List.not_mem_nil, or_false] at hy
        cases hy with
        | inl hy2 => subst hy2; exact List.Forall₂.cons (Or.inr rfl) List.Forall₂.nil
        | inr hy2 => subst hy2; exact List.Forall₂.cons (Or.inl rfl) List.Forall₂.nil
    have hshape := foldl_movesStep_shape rest _ [c] hinit mv hmem
    rw [List.singleton_append] at hshape
    refine ⟨hshape, ?_⟩
    have hlen0 : ∀ y ∈ (if c ≠ '_' then [[c], ['_']] else [[c]]), y.length = 1 := by
      by_cases hc : c = '_'
      · rw [if_neg (by simp [hc])]
        intro y hy
        simp only [List.mem_singleton] at hy
        subst hy; rfl
      · rw [if_pos hc]
        intro y hy
        simp only [List.mem_cons, List.mem_singleton, List.not_mem_nil, or_false] at hy
        cases hy with
        | inl hy2 => subst hy2; rfl
        | inr hy2 => subst hy2; rfl
    have hcount0 : List.count (List.replicate 1 '_')
        (if c ≠ '_' then [[c], ['_']] else [[c]]) = 1 := by
      by_cases hc : c = '_'
      · rw [if_neg (by simp [hc]), hc]
        rfl
      · rw [if_pos hc]
        rw [show (List.replicate 1 '_' : List Char) = ['_'] from rfl]
        rw [List.count_cons, List.count_cons, List.count_nil]
        simp [hc]
    have hcount := foldl_movesStep_count rest _ 1 hlen0 hcount0
    intro heq
    have hzero : List.count (List.replicate (rest.length + 1) '_')
        ((rest.foldl movesStep (if c ≠ '_' then [[c], ['_']] else [[c]])).erase
          (List.replicate (rest.length + 1) '_')) = 0 := by
      rw [List.count_erase_self]
      rw [show (1 : Nat) + rest.length = rest.length + 1 from by omega] at hcount
      omega
    rw [show (c :: rest : List Char).length = rest.length + 1 from by simp] at heq
    rw [heq] at h
    have hpos := List.count_pos_iff.mpr h
    have hpos2 : 0 < List.count (List.replicate (rest.length + 1) '_')
        ((rest.foldl movesStep (if c ≠ '_' then [[c], ['_']] else [[c]])).erase
          (List.replicate (rest.length + 1) '_')) := hpos
    omega

theorem generatemoves_length_mem (b mv : List Char) (h : mv ∈ generatemoves b) :
    mv.length = b.length :=
  (generatemoves_shape b mv h).1.length_eq

theorem basepairsP_length (seqs : Seqs) (c : Coord)
    (hlen : c.length = seqs.length) : (basepairsP seqs c).length = c.length := by
  unfold basepairsP
  rw [List.length_zipWith, hlen]
  simp

theorem move_gap_or_pos (seqs : Seqs) :
    ∀ (c : Coord) (mv : List Char), c.length = seqs.length →
    List.Forall₂ (fun mc bc => mc = '_' ∨ mc = bc) mv (basepairsP seqs c) →
    List.Forall₂ (fun mc u => mc = '_' ∨ 1 ≤ u) mv c := by
  intro c
  induction c generalizing seqs with
  | nil =>
    intro mv hlen h
    unfold basepairsP at h
    simp only [List.zipWith_nil_left] at h
    cases h
    exact List.Forall₂.nil
  | cons u c2 ih =>
    intro mv hlen h
    cases seqs with
    | nil => simp at hlen
    | cons s ss =>
      unfold basepairsP at h
      rw [List.zipWith_cons_cons] at h
      cases h with
      | cons h1 h2 =>
        rename_i m mv2
        refine List.Forall₂.cons ?_ (ih ss mv2 (by simpa using hlen) h2)
        cases h1 with
        | inl hm => exact Or.inl hm
        | inr hm =>
          by_cases hu : u = 0
          · rw [if_pos hu] at hm
            exact Or.inl hm
          · exact Or.inr (by omega)

theorem generatecoordinates_cons (m : Char) (mv : List Char) (u : Nat) (c : Coord) :
    generatecoordinates (m :: mv) (u :: c) =
      (if m = '_' then u else u - 1) :: generatecoordinates mv c := rfl

theorem generatecoordinates_step (mv : List Char) (c : Coord)
    (h : List.Forall₂ (fun mc u => mc = '_' ∨ 1 ≤ u) mv c) :
    List.Forall₂ (fun p v => p = v ∨ (1 ≤ v ∧ p = v - 1)) (generatecoordinates mv c) c := by
  induction h with
  | nil => exact List.Forall₂.nil
  | cons h1 h2 ih =>
    rename_i m u mv2 c2
    rw [generatecoordinates_cons]
    refine List.Forall₂.cons ?_ ih
    by_cases hm : m = '_'
    · rw [if_pos hm]; exact Or.inl rfl
    · rw [if_neg hm]
      cases h1 with
      | inl hm2 => exact absurd hm2 hm
      | inr hu => exact Or.inr ⟨hu, rfl⟩

theorem generatecoordinates_ne (mv : List Char) (c : Coord)
    (h : List.Forall₂ (fun mc u => mc = '_' ∨ 1 ≤ u) mv c)
    (hne2 : mv ≠ List.replicate mv.length '_') :
    generatecoordinates mv c ≠ c := by
  induction h with
  | nil => simp at hne2
  | cons h1 h2 ih =>
    rename_i m u mv2 c2
    rw [generatecoordinates_cons]
    by_cases hm : m = '_'
    · rw [if_pos hm]
      intro heq
      have htl : generatecoordinates mv2 c2 = c2 := by
        simpa using heq
      have hmv2 : mv2 ≠ List.replicate mv2.length '_' := by
        intro hx
        apply hne2
        rw [show (m :: mv2 : List Char).length = mv2.length + 1 from by simp,
          List.replicate_succ, hm]
        rw [hx]
        simp
      exact ih hmv2 htl
    · rw [if_neg hm]
      cases h1 with
      | inl hm2 => exact absurd hm2 hm
      | inr hu =>
        intro heq
        injection heq with hh _
        omega

theorem move_pred_main (seqs : Seqs) (c : Coord) (mv : List Char)
    (hc : List.Forall₂ (fun u L => u ≤ L) c (seqs.map List.length))
    (hm : mv ∈ generatemoves (basepairsP seqs c)) :
    stepOK (generatecoordinates mv c) c ∧
    (generatecoordinates mv c) ∈ lattice (seqs.map List.length) ∧
    rankC (seqs.map List.length) (generatecoordinates mv c) <
      rankC (seqs.map List.length) c := by
  have hlen_c : c.length = seqs.length := by
    have h2 := hc.length_eq
    simpa using h2
  have hshape := generatemoves_shape _ _ hm
  have hbp_len : (basepairsP seqs c).length = c.length := basepairsP_length seqs c hlen_c
  have hgap := move_gap_or_pos seqs c mv hlen_c hshape.1
  have hstep := generatecoordinates_step mv c hgap
  have hne : mv ≠ List.replicate mv.length '_' := by
    have hmvlen : mv.length = (basepairsP seqs c).length := hshape.1.length_eq
    rw [hmvlen]
    exact hshape.2
  have hnec := generatecoordinates_ne mv c hgap hne
  have hle : List.Forall₂ (fun u v => u ≤ v) (generatecoordinates mv c) c :=
    hstep.imp (fun h => by rcases h with h | h <;> omega)
  have hbound := forall₂_le_trans hle hc
  refine ⟨⟨hnec, hstep⟩, (mem_lattice_iff _ _).mpr hbound, ?_⟩
  exact rankC_lt_of_lt hbound hc hle hnec

theorem rank_lt_mem_prefix (lens : List Nat) (pre rest : List Coord) (x : Coord)
    (hsplit : lattice lens = pre ++ x :: rest) (p : Coord)
    (hp : p ∈ lattice lens) (hlt : rankC lens p < rankC lens x) : p ∈ pre := by
  have hpw := lattice_pairwise_rank lens
  rw [hsplit] at hpw hp
  rw [List.pairwise_append] at hpw
  rcases List.mem_append.mp hp with hmem | hmem
  · exact hmem
  · exfalso
    rcases List.mem_cons.mp hmem with rfl | hmem2
    · omega
    · have h2 := (List.pairwise_cons.mp hpw.2.1).1 p hmem2
      omega

theorem rank_lt_mem_prefix2 (lens : List Nat) (pre suf : List Coord)
    (hsplit : lattice lens = pre ++ suf) (p d : Coord)
    (hp : p ∈ lattice lens) (hd : d ∈ pre)
    (hlt : rankC lens p < rankC lens d) : p ∈ pre := by
  have hpw := lattice_pairwise_rank lens
  rw [hsplit] at hpw hp
  rw [List.pairwise_append] at hpw
  rcases List.mem_append.mp hp with hmem | hmem
  · exact hmem
  · exfalso
    have h2 := hpw.2.2 d hd p hmem
    omega

theorem bestFold_congr (f f' : α → Int) (g g' : α → β) (init : Int × β) (l : List α)
    (hf : ∀ v ∈ l, f' v = f v) (hg : ∀ v ∈ l, g' v = g v) :
    bestFold f' g' init l = bestFold f g init l := by
  induction l generalizing init with
  | nil => rfl
  | cons a t ih =>
    rw [bestFold_cons, bestFold_cons]
    rw [hf a (by simp), hg a (by simp)]
    exact ih _ (fun v hv => hf v (by simp [hv])) (fun v hv => hg v (by simp [hv]))

theorem cellBest_congr (m m' : AMatrix) (cfg : Config) (seqs : Seqs) (d : Coord)
    (init : Int × Option Coord)
    (h : ∀ mv ∈ generatemoves (basepairsP seqs d),
      m' (generatecoordinates mv d) = m (generatecoordinates mv d)) :
    cellBest m' cfg seqs d init = cellBest m cfg seqs d init := by
  unfold cellBest
  apply bestFold_congr
  · intro mv hmv
    unfold candScore
    rw [h mv hmv]
  · intro mv _
    rfl

theorem cellCands_congr (m m' : AMatrix) (cfg : Config) (seqs : Seqs) (d : Coord)
    (h : ∀ mv ∈ generatemoves (basepairsP seqs d),
      m' (generatecoordinates mv d) = m (generatecoordinates mv d)) :
    cellCands m' cfg seqs d = cellCands m cfg seqs d := by
  unfold cellCands
  apply List.map_congr_left
  intro mv hmv
  unfold candScore
  rw [h mv hmv]

theorem NWfill_inv (seqs : Seqs) (cfg : Config) :
    ∀ (suf pre : List Coord) (m : AMatrix),
    lattice (seqs.map List.length) = pre ++ suf →
    NWInv seqs cfg pre m →
    ∃ M, fillList (NWbody seqs cfg) suf m = .ok M ∧
      NWInv seqs cfg (pre ++ suf) M ∧ (∀ x ∈ pre, M x = m x) := by
  intro suf
  induction suf with
  | nil =>
    intro pre m hsplit hinv
    exact ⟨m, rfl, by simpa using hinv, fun x _ => rfl⟩
  | cons c rest ih =>
    intro pre m hsplit hinv
    obtain ⟨hdom, hzero, hcells⟩ := hinv
    have hc_mem : c ∈ lattice (seqs.map List.length) := by rw [hsplit]; simp
    have hc_f2 := (mem_lattice_iff _ _).mp hc_mem
    have hzero_mem : zeroC seqs ∈ pre := by
      rw [← hdom (zeroC seqs), hzero]
      rfl
    have hc_not_pre : c ∉ pre := by
      have hnd := lattice_nodup (seqs.map List.length)
      rw [hsplit] at hnd
      intro hmem
      exact (List.nodup_append.mp hnd).2.2 hmem (by simp)
    have hc_ne_zero : c ≠ zeroC seqs := fun h => hc_not_pre (h ▸ hzero_mem)
    have hbp := generatebasepairs_ok seqs c hc_f2
    have hpred_pre : ∀ mv ∈ generatemoves (basepairsP seqs c),
        generatecoordinates mv c ∈ pre := by
      intro mv hmv
      obtain ⟨hstep, hmem_p, hrank⟩ := move_pred_main seqs c mv hc_f2 hmv
      exact rank_lt_mem_prefix _ pre rest c hsplit _ hmem_p hrank
    have hpred : ∀ mv ∈ generatemoves (basepairsP seqs c),
        m (generatecoordinates mv c) ≠ none := by
      intro mv hmv hnone
      have h2 := (hdom _).mpr (hpred_pre mv hmv)
      rw [hnone] at h2
      simp at h2
    have hbody := NWbody_ok seqs cfg m c hbp hpred
    have hval_stable : cellBest (enterelement m c
        ⟨(cellBest m cfg seqs c (-100000000, none)).2,
          (cellBest m cfg seqs c (-100000000, none)).1⟩) cfg seqs c (-100000000, none) =
        cellBest m cfg seqs c (-100000000, none) := by
      apply cellBest_congr
      intro mv hmv
      unfold enterelement
      rw [if_neg (show ¬(generatecoordinates mv c = c) from
        fun h => hc_not_pre (h ▸ hpred_pre mv hmv))]
    have hsplit2 : lattice (seqs.map List.length) = (pre ++ [c]) ++ rest := by
      rw [hsplit]; simp
    have hinv2 : NWInv seqs cfg (pre ++ [c]) (enterelement m c
        ⟨(cellBest m cfg seqs c (-100000000, none)).2,
          (cellBest m cfg seqs c (-100000000, none)).1⟩) := by
      refine ⟨?_, ?_, ?_⟩
      · intro x
        unfold enterelement
        by_cases hx : x = c
        · subst hx
          simp
        · rw [if_neg hx]
          rw [hdom x]
          simp [hx]
      · unfold enterelement
        rw [if_neg (fun h => hc_ne_zero h.symm), hzero]
      · intro d hd hdz
        have hd_preds_pre : ∀ mv ∈ generatemoves (basepairsP seqs d),
            generatecoordinates mv d ∈ pre ++ [c] := by
          intro mv hmv
          rcases List.mem_append.mp hd with hd_pre | hd_c
          · have hd_mem : d ∈ lattice (seqs.map List.length) := by
              rw [hsplit]
              exact List.mem_append.mpr (Or.inl hd_pre)
            obtain ⟨hstep, hmem_p, hrank⟩ :=
              move_pred_main seqs d mv ((mem_lattice_iff _ _).mp hd_mem) hmv
            exact List.mem_append.mpr
              (Or.inl (rank_lt_mem_prefix2 _ pre (c :: rest) hsplit _ d hmem_p hd_pre hrank))
          · have hdc : d = c := by simpa using hd_c
            subst hdc
            exact List.mem_append.mpr (Or.inl (hpred_pre mv hmv))
        rcases List.mem_append.mp hd with hd_pre | hd_c
        · have hstable : cellBest (enterelement m c
              ⟨(cellBest m cfg seqs c (-100000000, none)).2,
                (cellBest m cfg seqs c (-100000000, none)).1⟩) cfg seqs d
              (-100000000, none) = cellBest m cfg seqs d (-100000000, none) := by
            apply cellBest_congr
            intro mv hmv
            have hp_pre : generatecoordinates mv d ∈ pre ++ [c] := hd_preds_pre mv hmv
            have hd_mem : d ∈ lattice (seqs.map List.length) := by
              rw [hsplit]
              exact List.mem_append.mpr (Or.inl hd_pre)
            obtain ⟨hstep, hmem_p, hrank⟩ :=
              move_pred_main seqs d mv ((mem_lattice_iff _ _).mp hd_mem) hmv
            have hp2 : generatecoordinates mv d ∈ pre :=
              rank_lt_mem_prefix2 _ pre (c :: rest) hsplit _ d hmem_p hd_pre hrank
            unfold enterelement
            rw [if_neg (show ¬(generatecoordinates mv d = c) from
              fun h => hc_not_pre (h ▸ hp2))]
          rw [hstable]
          have hdval : enterelement m c
              ⟨(cellBest m cfg seqs c (-100000000, none)).2,
                (cellBest m cfg seqs c (-100000000, none)).1⟩ d = m d := by
            unfold enterelement
            rw [if_neg (show ¬(d = c) from fun h => hc_not_pre (h ▸ hd_pre))]
          rw [hdval]
          exact hcells d hd_pre hdz
        · have hdc : d = c := by simpa using hd_c
          subst hdc
          rw [hval_stable]
          unfold enterelement
          rw [if_pos rfl]
    obtain ⟨M, hfill, hinvM, hpresM⟩ := ih (pre ++ [c]) _ hsplit2 hinv2
    refine ⟨M, ?_, ?_, ?_⟩
    · show (NWbody seqs cfg m c) >>= (fillList (NWbody seqs cfg) rest) = .ok M
      rw [hbody]
      exact hfill
    · rw [show pre ++ c :: rest = (pre ++ [c]) ++ rest from by simp]
      exact hinvM
    · intro x hx
      rw [hpresM x (List.mem_append.mpr (Or.inl hx))]
      unfold enterelement
      rw [if_neg (show ¬(x = c) from fun h => hc_not_pre (h ▸ hx))]

theorem flatMap_congr_left (l : List α) (f f' : α → List β)
    (h : ∀ a ∈ l, f' a = f a) : l.flatMap f' = l.flatMap f := by
  rw [List.flatMap_def, List.flatMap_def, List.map_congr_left h]

theorem SWfill_inv (seqs : Seqs) (cfg : Config) :
    ∀ (suf pre : List Coord) (m : AMatrix) (best : Int × Coord),
    lattice (seqs.map List.length) = pre ++ suf →
    SWInv seqs cfg pre m best →
    ∃ M B, fillList (SWbody seqs cfg) suf (m, best) = .ok (M, B) ∧
      SWInv seqs cfg (pre ++ suf) M B ∧ (∀ x ∈ pre, M x = m x) := by
  intro suf
  induction suf with
  | nil =>
    intro pre m best hsplit hinv
    exact ⟨m, best, rfl, by simpa using hinv, fun x _ => rfl⟩
  | cons c rest ih =>
    intro pre m best hsplit hinv
    obtain ⟨hdom, hzero, hcells, hbest⟩ := hinv
    have hc_mem : c ∈ lattice (seqs.map List.length) := by rw [hsplit]; simp
    have hc_f2 := (mem_lattice_iff _ _).mp hc_mem
    have hzero_mem : zeroC seqs ∈ pre := by
      rw [← hdom (zeroC seqs), hzero]
      rfl
    have hc_not_pre : c ∉ pre := by
      have hnd := lattice_nodup (seqs.map List.length)
      rw [hsplit] at hnd
      intro hmem
      exact (List.nodup_append.mp hnd).2.2 hmem (by simp)
    have hc_ne_zero : c ≠ zeroC seqs := fun h => hc_not_pre (h ▸ hzero_mem)
    have hbp := generatebasepairs_ok seqs c hc_f2
    have hpred_pre : ∀ mv ∈ generatemoves (basepairsP seqs c),
        generatecoordinates mv c ∈ pre := by
      intro mv hmv
      obtain ⟨hstep, hmem_p, hrank⟩ := move_pred_main seqs c mv hc_f2 hmv
      exact rank_lt_mem_prefix _ pre rest c hsplit _ hmem_p hrank
    have hpred : ∀ mv ∈ generatemoves (basepairsP seqs c),
        m (generatecoordinates mv c) ≠ none := by
      intro mv hmv hnone
      have h2 := (hdom _).mpr (hpred_pre mv hmv)
      rw [hnone] at h2
      simp at h2
    have hbody := SWbody_ok seqs cfg m best c hbp hpred
    have hm' : ∀ mv ∈ generatemoves (basepairsP seqs c),
        (enterelement m c
          ⟨(cellBest m cfg seqs c (0, none)).2, (cellBest m cfg seqs c (0, none)).1⟩)
          (generatecoordinates mv c) = m (generatecoordinates mv c) := by
      intro mv hmv
      unfold enterelement
      rw [if_neg (show ¬(generatecoordinates mv c = c) from
        fun h => hc_not_pre (h ▸ hpred_pre mv hmv))]
    have hval_stable : cellBest (enterelement m c
        ⟨(cellBest m cfg seqs c (0, none)).2,
          (cellBest m cfg seqs c (0, none)).1⟩) cfg seqs c (0, none) =
        cellBest m cfg seqs c (0, none) := cellBest_congr _ _ _ _ _ _ hm'
    have hsplit2 : lattice (seqs.map List.length) = (pre ++ [c]) ++ rest := by
      rw [hsplit]; simp
    have hpred_pre_d : ∀ d ∈ pre, ∀ mv ∈ generatemoves (basepairsP seqs d),
        generatecoordinates mv d ∈ pre := by
      intro d hd_pre mv hmv
      have hd_mem : d ∈ lattice (seqs.map List.length) := by
        rw [hsplit]
        exact List.mem_append.mpr (Or.inl hd_pre)
      obtain ⟨hstep, hmem_p, hrank⟩ :=
        move_pred_main seqs d mv ((mem_lattice_iff _ _).mp hd_mem) hmv
      exact rank_lt_mem_prefix2 _ pre (c :: rest) hsplit _ d hmem_p hd_pre hrank
    have hnotc_d : ∀ d ∈ pre, ∀ mv ∈ generatemoves (basepairsP seqs d),
        (enterelement m c
          ⟨(cellBest m cfg seqs c (0, none)).2, (cellBest m cfg seqs c (0, none)).1⟩)
          (generatecoordinates mv d) = m (generatecoordinates mv d) := by
      intro d hd_pre mv hmv
      unfold enterelement
      rw [if_neg (show ¬(generatecoordinates mv d = c) from
        fun h => hc_not_pre (h ▸ hpred_pre_d d hd_pre mv hmv))]
    have hinv2 : SWInv seqs cfg (pre ++ [c]) (enterelement m c
        ⟨(cellBest m cfg seqs c (0, none)).2, (cellBest m cfg seqs c (0, none)).1⟩)
        (bestFold Prod.snd Prod.fst best (cellCands m cfg seqs c)) := by
      refine ⟨?_, ?_, ?_, ?_⟩
      · intro x
        unfold enterelement
        by_cases hx : x = c
        · subst hx
          simp
        · rw [if_neg hx]
          rw [hdom x]
          simp [hx]
      · unfold enterelement
        rw [if_neg (fun h => hc_ne_zero h.symm), hzero]
      · intro d hd hdz
        rcases List.mem_append.mp hd with hd_pre | hd_c
        · have hstable : cellBest (enterelement m c
              ⟨(cellBest m cfg seqs c (0, none)).2,
                (cellBest m cfg seqs c (0, none)).1⟩) cfg seqs d (0, none) =
              cellBest m cfg seqs d (0, none) :=
            cellBest_congr _ _ _ _ _ _ (hnotc_d d hd_pre)
          rw [hstable]
          have hdval : enterelement m c
              ⟨(cellBest m cfg seqs c (0, none)).2,
                (cellBest m cfg seqs c (0, none)).1⟩ d = m d := by
            unfold enterelement
            rw [if_neg (show ¬(d = c) from fun h => hc_not_pre (h ▸ hd_pre))]
          rw [hdval]
          exact hcells d hd_pre hdz
        · have hdc : d = c := by simpa using hd_c
          subst hdc
          rw [hval_stable]
          unfold enterelement
          rw [if_pos rfl]
      · rw [hbest]
        have hfilter : (pre ++ [c]).filter (fun d => d ≠ zeroC seqs) =
            pre.filter (fun d => d ≠ zeroC seqs) ++ [c] := by
          rw [List.filter_append]
          congr 1
          simp [hc_ne_zero]
        rw [hfilter, List.flatMap_append, bestFold_append]
        have hcongr : (pre.filter (fun d => d ≠ zeroC seqs)).flatMap
            (cellCands (enterelement m c
              ⟨(cellBest m cfg seqs c (0, none)).2,
                (cellBest m cfg seqs c (0, none)).1⟩) cfg seqs) =
            (pre.filter (fun d => d ≠ zeroC seqs)).flatMap (cellCands m cfg seqs) := by
          apply flatMap_congr_left
          intro d hd
          exact cellCands_congr _ _ _ _ _ (hnotc_d d (List.mem_of_mem_filter hd))
        rw [hcongr]
        simp only [List.flatMap_cons, List.flatMap_nil, List.append_nil]
        rw [cellCands_congr _ _ _ _ _ hm']
    obtain ⟨M, B, hfill, hinvM, hpresM⟩ := ih (pre ++ [c]) _ _ hsplit2 hinv2
    refine ⟨M, B, ?_, ?_, ?_⟩
    · show (SWbody seqs cfg (m, best) c) >>= (fillList (SWbody seqs cfg) rest) = .ok (M, B)
      rw [hbody]
      exact hfill
    · rw [show pre ++ c :: rest = (pre ++ [c]) ++ rest from by simp]
      exact hinvM
    · intro x hx
      rw [hpresM x (List.mem_append.mpr (Or.inl hx))]
      unfold enterelement
      rw [if_neg (show ¬(x = c) from fun h => hc_not_pre (h ▸ hx))]

theorem initMatrix_inv (seqs : Seqs) (cfg : Config) :
    NWInv seqs cfg [zeroC seqs] (initMatrix seqs) := by
  refine ⟨?_, ?_, ?_⟩
  · intro x
    unfold initMatrix enterelement
    by_cases hx : x = zeroC seqs
    · subst hx; simp
    · rw [if_neg hx]; simp [hx]
  · unfold initMatrix enterelement
    rw [if_pos rfl]
  · intro d hd hdz
    simp only [List.mem_singleton] at hd
    exact absurd hd hdz

theorem initMatrix_swinv (seqs : Seqs) (cfg : Config) :
    SWInv seqs cfg [zeroC seqs] (initMatrix seqs) (0, zeroC seqs) := by
  refine ⟨?_, ?_, ?_, ?_⟩
  · intro x
    unfold initMatrix enterelement
    by_cases hx : x = zeroC seqs
    · subst hx; simp
    · rw [if_neg hx]; simp [hx]
  · unfold initMatrix enterelement
    rw [if_pos rfl]
  · intro d hd hdz
    simp only [List.mem_singleton] at hd
    exact absurd hd hdz
  · simp [bestFold]

theorem NWsolve_post (seqs : Seqs) (cfg : Config) (hs : seqs ≠ [])
    (h0 : 0 < (seqs.headD []).length) :
    ∃ M, NWsolve seqs cfg = .ok M ∧
      NWInv seqs cfg (lattice (seqs.map List.length)) M := by
  rw [NWsolve_eq_fillList seqs cfg hs h0]
  obtain ⟨steps, hsteps⟩ := lattice_tail_structure seqs hs h0
  have hsplit : lattice (seqs.map List.length) =
      [zeroC seqs] ++ (lattice (seqs.map List.length)).tail := by
    rw [hsteps]
    rfl
  obtain ⟨M, hfill, hinv, _⟩ := NWfill_inv seqs cfg
    (lattice (seqs.map List.length)).tail [zeroC seqs] (initMatrix seqs)
    hsplit (initMatrix_inv seqs cfg)
  rw [← hsplit] at hinv
  exact ⟨M, hfill, hinv⟩

theorem SWsolve_post (seqs : Seqs) (cfg : Config) (hs : seqs ≠ [])
    (h0 : 0 < (seqs.headD []).length) :
    ∃ M B, SWsolve seqs cfg = .ok (M, B) ∧
      SWInv seqs cfg (lattice (seqs.map List.length)) M B := by
  rw [SWsolve_eq_fillList seqs cfg hs h0]
  obtain ⟨steps, hsteps⟩ := lattice_tail_structure seqs hs h0
  have hsplit : lattice (seqs.map List.length) =
      [zeroC seqs] ++ (lattice (seqs.map List.length)).tail := by
    rw [hsteps]
    rfl
  obtain ⟨M, B, hfill, hinv, _⟩ := SWfill_inv seqs cfg
    (lattice (seqs.map List.length)).tail [zeroC seqs] (initMatrix seqs) (0, zeroC seqs)
    hsplit (initMatrix_swinv seqs cfg)
  rw [← hsplit] at hinv
  exact ⟨M, B, hfill, hinv⟩

theorem foldl_max_of_nonpos (l : List Int) (h : ∀ v ∈ l, v ≤ 0) :
    l.foldl max 0 = 0 := by
  induction l with
  | nil => rfl
  | cons a t ih =>
    rw [List.foldl_cons]
    rw [show max (0 : Int) a = 0 from by
      have := h a (by simp)
      omega]
    exact ih (fun v hv => h v (by simp [hv]))

theorem foldl_max_ge_init (l : List Int) (b : Int) : b ≤ l.foldl max b := by
  induction l generalizing b with
  | nil => exact le_refl _
  | cons a t ih =>
    rw [List.foldl_cons]
    exact le_trans (le_max_left b a) (ih _)

theorem foldl_max_ge_mem (l : List Int) (v : Int) :
    ∀ (b : Int), v ∈ l → v ≤ l.foldl max b := by
  induction l with
  | nil => intro b h; cases h
  | cons a t ih =>
    intro b h
    rw [List.foldl_cons]
    rcases List.mem_cons.mp h with rfl | h2
    · exact le_trans (le_max_right b v) (foldl_max_ge_init t _)
    · exact ih _ h2

theorem lattice_filter_zero (seqs : Seqs) (hs : seqs ≠ [])
    (h0 : 0 < (seqs.headD []).length) :
    (lattice (seqs.map List.length)).filter (fun d => d ≠ zeroC seqs) =
      (lattice (seqs.map List.length)).tail := by
  obtain ⟨steps, hsteps⟩ := lattice_tail_structure seqs hs h0
  have hnd := lattice_nodup (seqs.map List.length)
  rw [hsteps] at hnd ⊢
  rw [List.filter_cons]
  rw [if_neg (by simp)]
  show List.filter (fun d => d ≠ zeroC seqs) (initCounter seqs :: steps) = _
  rw [List.filter_eq_self.mpr]
  · rfl
  · intro a ha
    have hne : a ≠ zeroC seqs := by
      intro heq
      subst heq
      exact (List.nodup_cons.mp hnd).1 ha
    simpa using hne

theorem chain_mono_getD (v : Nat) :
    ∀ (chain : List Coord) (hch : chain ≠ []),
    List.Chain' stepOK chain →
    ∀ y ∈ chain, y.getD v 0 ≤ (chain.getLast hch).getD v 0 := by
  intro chain
  induction chain with
  | nil => intro hch; cases hch rfl
  | cons x rest ih =>
    intro hch hchain y hy
    cases rest with
    | nil =>
      simp only [List.mem_singleton] at hy
      subst hy
      exact le_refl _
    | cons z rest2 =>
      have hstep : stepOK x z := (List.chain'_cons.mp hchain).1
      have hchain2 : List.Chain' stepOK (z :: rest2) := (List.chain'_cons.mp hchain).2
      have hlast : (x :: z :: rest2).getLast (by simp) =
          (z :: rest2).getLast (by simp) := List.getLast_cons (by simp)
      rw [hlast]
      rcases List.mem_cons.mp hy with rfl | hy2
      · have hxz : y.getD v 0 ≤ z.getD v 0 := by
          obtain ⟨hne, hf2⟩ := hstep
          have h3 := forall₂_le_getD (hf2.imp (fun h => by rcases h with h | h <;> omega)) v
          exact h3
        exact le_trans hxz (ih (by simp) hchain2 z (by simp))
      · exact ih (by simp) hchain2 y hy2

theorem stepOK_getD (a b : Coord) (h : stepOK a b) (v : Nat) :
    a.getD v 0 = b.getD v 0 ∨ (1 ≤ b.getD v 0 ∧ a.getD v 0 = b.getD v 0 - 1) := by
  obtain ⟨hne, hf2⟩ := h
  clear hne
  induction hf2 generalizing v with
  | nil => exact Or.inl rfl
  | cons h1 h2 ih =>
    cases v with
    | zero => simpa using h1
    | succ v2 => simpa using ih v2

theorem strip_row (s : List Char) (hdot : '.' ∉ s) (v : Nat) :
    ∀ (chain : List Coord) (hch : chain ≠ []),
    List.Chain' stepOK chain →
    (∀ y ∈ chain, y.getD v 0 ≤ s.length) →
    stripGaps ((chain.zip chain.tail).map (fun ab =>
      if ab.1.getD v 0 = ab.2.getD v 0 then '.'
      else s.getD (ab.2.getD v 0 - 1) '?')) =
      (s.drop ((chain.head hch).getD v 0)).take
        ((chain.getLast hch).getD v 0 - (chain.head hch).getD v 0) := by
  intro chain
  induction chain with
  | nil => intro hch; cases hch rfl
  | cons x rest ih =>
    intro hch hchain hall
    cases rest with
    | nil =>
      simp [stripGaps]
    | cons y rest2 =>
      have hstep : stepOK x y := (List.chain'_cons.mp hchain).1
      have hchain2 : List.Chain' stepOK (y :: rest2) := (List.chain'_cons.mp hchain).2
      have hall2 : ∀ z ∈ y :: rest2, z.getD v 0 ≤ s.length :=
        fun z hz => hall z (by simp [hz])
      have hih := ih (by simp) hchain2 hall2
      have hzip : (x :: y :: rest2).zip (x :: y :: rest2).tail =
          (x, y) :: ((y :: rest2).zip (y :: rest2).tail) := rfl
      rw [hzip, List.map_cons]
      have hlast : (x :: y :: rest2).getLast hch =
          (y :: rest2).getLast (by simp) := List.getLast_cons (by simp)
      have hylast : y.getD v 0 ≤ ((y :: rest2).getLast (by simp)).getD v 0 :=
        chain_mono_getD v (y :: rest2) (by simp) hchain2 y (by simp)
      rcases stepOK_getD x y hstep v with heq | hdec
      · rw [if_pos heq]
        unfold stripGaps at hih ⊢
        rw [List.filter_cons]
        rw [if_neg (by simp)]
        rw [hih, hlast]
        simp only [List.head_cons]
        rw [heq]
      · obtain ⟨hy1, hxy⟩ := hdec
        have hylen : y.getD v 0 - 1 < s.length := by
          have := hall y (by simp)
          omega
        have hchar : s.getD (y.getD v 0 - 1) '?' = s[y.getD v 0 - 1] :=
          List.getD_eq_getElem s '?' hylen
        have hmem : s.getD (y.getD v 0 - 1) '?' ∈ s := by
          rw [hchar]
          exact List.getElem_mem hylen
        have hne_dot : s.getD (y.getD v 0 - 1) '?' ≠ '.' :=
          fun h => hdot (h ▸ hmem)
        rw [if_neg (show ¬(x.getD v 0 = y.getD v 0) from by omega)]
        unfold stripGaps at hih ⊢
        rw [List.filter_cons]
        rw [if_pos (by simpa using hne_dot)]
        rw [hih, hlast]
        simp only [List.head_cons]
        have hdrop : s.drop (x.getD v 0) = s[y.getD v 0 - 1] :: s.drop (y.getD v 0) := by
          have h2 := List.drop_eq_getElem_cons (show x.getD v 0 < s.length by omega)
          rw [h2]
          congr 2
          omega
        rw [hdrop]
        rw [show ((y :: rest2).getLast (by simp)).getD v 0 - x.getD v 0 =
          (((y :: rest2).getLast (by simp)).getD v 0 - y.getD v 0) + 1 from by omega]
        rw [List.take_succ_cons]
        rw [hchar]

theorem cellBest_snd_shape (m : AMatrix) (cfg : Config) (seqs : Seqs) (c : Coord)
    (init : Int × Option Coord) :
    (cellBest m cfg seqs c init).2 = init.2 ∨
      ∃ mv ∈ generatemoves (basepairsP seqs c),
        (cellBest m cfg seqs c init).2 = some (generatecoordinates mv c) := by
  unfold cellBest
  exact bestFold_snd_cases _ _ _ _

theorem tracebackLoop_chain (m : AMatrix) (seqs : Seqs) (cfg : Config)
    (hinv : NWInv seqs cfg (lattice (seqs.map List.length)) m) :
    ∀ (fuel : Nat) (x : Coord) (acc res : List Coord),
    x ∈ lattice (seqs.map List.length) →
    tracebackLoop m (zeroC seqs) fuel x acc = .ok res →
    ∃ chainpart, res = chainpart ++ acc ∧
      List.Chain' stepOK (chainpart ++ [x]) ∧
      (chainpart ++ [x]).head (by simp) = zeroC seqs ∧
      (∀ y ∈ chainpart ++ [x], y ∈ lattice (seqs.map List.length)) := by
  obtain ⟨hdom, hzero, hcells⟩ := hinv
  intro fuel
  induction fuel with
  | zero => intro x acc res _ hok; cases hok
  | succ f ih =>
    intro x acc res hx hok
    rw [show tracebackLoop m (zeroC seqs) (f + 1) x acc =
      (if x = zeroC seqs then pure acc
       else
        match retrievematrixelement m x with
        | none => throw .attributeError
        | some sc =>
          match sc.coordinate with
          | none => throw .typeError
          | some p => tracebackLoop m (zeroC seqs) f p (p :: acc)) from rfl] at hok
    by_cases hxz : x = zeroC seqs
    · rw [if_pos hxz] at hok
      have hres : res = acc := by
        have h2 : Except.ok acc = (Except.ok res : Except PyErr (List Coord)) := hok
        exact (Except.ok.inj h2).symm
      subst hres
      refine ⟨[], by simp, ?_, ?_, ?_⟩
      · exact List.chain'_singleton _
      · simpa using hxz
      · intro y hy
        simp only [List.nil_append, List.mem_singleton] at hy
        subst hy
        exact hx
    · rw [if_neg hxz] at hok
      have hsome : ∃ sc, m x = some sc := by
        have h2 := (hdom x).mpr hx
        cases hmx : m x with
        | none => rw [hmx] at h2; simp at h2
        | some sc => exact ⟨sc, rfl⟩
      obtain ⟨sc, hsc⟩ := hsome
      rw [show retrievematrixelement m x = m x from rfl, hsc] at hok
      have hcell := hcells x hx hxz
      rw [hsc] at hcell
      have hscv : sc = ⟨(cellBest m cfg seqs x (-100000000, none)).2,
          (cellBest m cfg seqs x (-100000000, none)).1⟩ := Option.some_inj.mp hcell
      rcases cellBest_snd_shape m cfg seqs x (-100000000, none) with hnone | hmv
      · exfalso
        rw [hscv] at hok
        simp only [hnone] at hok
        cases hok
      · obtain ⟨mv, hmv_mem, hmv_eq⟩ := hmv
        rw [hscv] at hok
        simp only [hmv_eq] at hok
        have hx_f2 := (mem_lattice_iff _ _).mp hx
        obtain ⟨hstepok, hp_mem, _⟩ := move_pred_main seqs x mv hx_f2 hmv_mem
        obtain ⟨cp, hcp_res, hcp_chain, hcp_head, hcp_mem⟩ :=
          ih (generatecoordinates mv x) (generatecoordinates mv x :: acc) res hp_mem hok
        refine ⟨cp ++ [generatecoordinates mv x], ?_, ?_, ?_, ?_⟩
        · rw [hcp_res]; simp
        · refine List.Chain'.append hcp_chain (List.chain'_singleton x) ?_
          intro a ha b hb
          simp only [List.getLast?_concat] at ha
          simp only [List.head?_cons] at hb
          cases ha
          cases hb
          exact hstepok
        · have h2 : (cp ++ [generatecoordinates mv x] ++ [x]).head (by simp) =
              (cp ++ [generatecoordinates mv x]).head (by simp) := by
            cases cp with
            | nil => rfl
            | cons a t => rfl
          rw [h2]
          exact hcp_head
        · intro y hy
          rcases List.mem_append.mp hy with hy1 | hy2
          · exact hcp_mem y hy1
          · simp only [List.mem_singleton] at hy2
            subst hy2
            exact hx

/-- C3: the local (Smith–Waterman) recurrence.  For every non-origin lattice
coordinate the stored score is the maximum of the move candidates floored at 0
(hence never negative), and the predecessor is `none` exactly when no
candidate exceeds 0 (a restart boundary); the global running best pair is the
strict-improvement fold over all candidates in traversal order, so its score
is the floored maximum over the whole candidate stream and ties keep the
earliest-found maximum (the first candidate attaining it). -/
theorem C3_local_recurrence (seqs : Seqs) (cfg : Config) (hs : seqs ≠ [])
    (h0 : 0 < (seqs.headD []).length) :
    ∃ M B, SWsolve seqs cfg = .ok (M, B) ∧
      (∀ c ∈ lattice (seqs.map List.length), c ≠ zeroC seqs →
        ∃ cell, M c = some cell ∧
          cell.score = (candsAt M cfg seqs c).foldl max 0 ∧
          0 ≤ cell.score ∧
          (cell.coordinate = none ↔ ∀ v ∈ candsAt M cfg seqs c, v ≤ 0)) ∧
      B.1 = (((lattice (seqs.map List.length)).tail.flatMap
          (cellCands M cfg seqs)).map Prod.snd).foldl max 0 ∧
      (0 < B.1 → ∃ p, ((lattice (seqs.map List.length)).tail.flatMap
          (cellCands M cfg seqs)).find? (fun q => decide (q.2 = B.1)) = some p ∧
        p.1 = B.2) ∧
      (B.1 = 0 → B.2 = zeroC seqs) := by
  obtain ⟨M, B, hMB, hinv⟩ := SWsolve_post seqs cfg hs h0
  obtain ⟨hdom, hzero, hcells, hbest⟩ := hinv
  rw [lattice_filter_zero seqs hs h0] at hbest
  refine ⟨M, B, hMB, ?_, ?_, ?_, ?_⟩
  · intro c hc hcz
    refine ⟨_, hcells c hc hcz, ?_, ?_, ?_⟩
    · show (cellBest M cfg seqs c (0, none)).1 = _
      unfold cellBest
      rw [bestFold_fst]
      unfold candsAt
      rw [List.foldl_map]
    · show (0 : Int) ≤ (cellBest M cfg seqs c (0, none)).1
      exact bestFold_fst_ge _ _ _ _
    · show (cellBest M cfg seqs c (0, none)).2 = none ↔ _
      constructor
      · intro hnone v hv
        by_contra hgt
        push_neg at hgt
        have hfold : (0 : Int) < (cellBest M cfg seqs c (0, none)).1 := by
          unfold cellBest
          rw [bestFold_fst]
          unfold candsAt at hv
          rw [List.mem_map] at hv
          obtain ⟨mv, hmv, rfl⟩ := hv
          calc (0 : Int) < candScore M cfg c mv := hgt
          _ ≤ _ := by
            rw [← List.foldl_map]
            exact foldl_max_ge_mem _ _ 0 (List.mem_map_of_mem _ hmv)
        obtain ⟨mv2, _, hval⟩ := bestFold_attained _ _ _ _ hfold
        unfold cellBest at hnone
        rw [hval] at hnone
        cases hnone
      · intro hall
        have hfold : (cellBest M cfg seqs c (0, none)).1 = 0 := by
          unfold cellBest
          rw [bestFold_fst]
          rw [show (List.foldl (fun b v => max b (candScore M cfg c v)) 0
              (generatemoves (basepairsP seqs c))) =
            (candsAt M cfg seqs c).foldl max 0 from by
            unfold candsAt
            rw [List.foldl_map]]
          exact foldl_max_of_nonpos _ hall
        have h2 := bestFold_eq_init _ _ _ _ hfold
        unfold cellBest at h2 ⊢
        rw [h2]
  · rw [hbest, bestFold_fst, List.foldl_map]
  · intro hpos
    rw [hbest] at hpos ⊢
    have h2 := bestFold_attained Prod.snd Prod.fst (0, zeroC seqs)
      ((lattice (seqs.map List.length)).tail.flatMap (cellCands M cfg seqs)) hpos
    obtain ⟨p, hfind, hval⟩ := h2
    refine ⟨p, hfind, ?_⟩
    rw [hval]
  · intro hz
    rw [hbest] at hz ⊢
    have h2 := bestFold_eq_init Prod.snd Prod.fst (0, zeroC seqs) _ hz
    rw [h2]

theorem C3_local_recurrence_witness :
    (([['A'], ['A']] : Seqs) ≠ []) ∧
    0 < (([['A'], ['A']] : Seqs).headD []).length ∧
    ∃ M B, SWsolve [['A'], ['A']] {} = .ok (M, B) :=
  ⟨by decide, by decide,
    match C3_local_recurrence [['A'], ['A']] {} (by decide) (by decide) with
    | ⟨M, B, hMB, _⟩ => ⟨M, B, hMB⟩⟩

/-- C7 counterexample: the claim says the Cell at the all-zero coordinate has
predecessor `none`.  In fact `__init__` seeds `Score([0]*N, 0)`, whose
predecessor field is the all-zero coordinate itself, not `None`. -/
theorem C7_origin_predecessor_counterexample :
    initMatrix [['A'], ['A']] [0, 0] = some ⟨some [0, 0], 0⟩ ∧
    ∀ sc : Score, initMatrix [['A'], ['A']] [0, 0] = some sc → sc.coordinate ≠ none := by
  refine ⟨rfl, ?_⟩
  intro sc hsc
  have h1 : initMatrix [['A'], ['A']] [0, 0] = some ⟨some [0, 0], 0⟩ := rfl
  rw [h1] at hsc
  rw [(Option.some_inj.mp hsc).symm]
  simp

/-- C7 (amended): at every point in the engine lifecycle the all-zero
coordinate's Cell has score 0 and predecessor equal to the all-zero coordinate
ITSELF (a self-loop, not `none`): it is seeded that way by `__init__` and both
`NW.solve` and `SW.solve` leave it untouched (the traversal starts at
`[1,0,...,0]` and never revisits the origin). -/
theorem C7_origin_cell_selfloop (seqs : Seqs) (cfg : Config) (hs : seqs ≠ [])
    (h0 : 0 < (seqs.headD []).length) :
    initMatrix seqs (zeroC seqs) = some ⟨some (zeroC seqs), 0⟩ ∧
    (NWsolve seqs cfg).map (fun m => m (zeroC seqs)) =
      .ok (some ⟨some (zeroC seqs), 0⟩) ∧
    (SWsolve seqs cfg).map (fun st => st.1 (zeroC seqs)) =
      .ok (some ⟨some (zeroC seqs), 0⟩) := by
  obtain ⟨M, hM, hinv⟩ := NWsolve_post seqs cfg hs h0
  obtain ⟨M2, B2, hM2, hinv2⟩ := SWsolve_post seqs cfg hs h0
  refine ⟨?_, ?_, ?_⟩
  · unfold initMatrix enterelement
    rw [if_pos rfl]
  · rw [hM]
    show Except.ok (M (zeroC seqs)) = _
    rw [hinv.2.1]
  · rw [hM2]
    show Except.ok (M2 (zeroC seqs)) = _
    rw [hinv2.2.1]

theorem C7_origin_cell_selfloop_witness :
    ((([['A'], ['B']] : Seqs) ≠ []) ∧ 0 < (([['A'], ['B']] : Seqs).headD []).length) ∧
    (initMatrix [['A'], ['B']] (zeroC [['A'], ['B']]) =
        some ⟨some (zeroC [['A'], ['B']]), 0⟩ ∧
      (NWsolve [['A'], ['B']] {}).map (fun m => m (zeroC [['A'], ['B']])) =
        .ok (some ⟨some (zeroC [['A'], ['B']]), 0⟩) ∧
      (SWsolve [['A'], ['B']] {}).map (fun st => st.1 (zeroC [['A'], ['B']])) =
        .ok (some ⟨some (zeroC [['A'], ['B']]), 0⟩)) :=
  ⟨⟨by decide, by decide⟩, C7_origin_cell_selfloop [['A'], ['B']] {} (by decide) (by decide)⟩

theorem foldl_movesStep_length (rest : List Char) :
    ∀ acc : List (List Char),
    (rest.foldl movesStep acc).length =
      acc.length * 2 ^ (rest.countP (fun ch => decide (ch ≠ '_'))) := by
  induction rest with
  | nil => intro acc; simp
  | cons c rest2 ih =>
    intro acc
    rw [List.foldl_cons, ih]
    have hstep : (movesStep acc c).length =
        acc.length * (if c ≠ '_' then 2 else 1) := by
      unfold movesStep
      by_cases hc : c = '_'
      · rw [if_pos hc, if_neg (by simp [hc])]
        simp
      · rw [if_neg hc, if_pos hc]
        simp
        omega
    rw [hstep, List.countP_cons]
    by_cases hc : c = '_'
    · rw [if_neg (by simp [hc]), if_neg (by simp [hc])]
      ring_nf
    · rw [if_pos (by simp [hc]), if_pos (by simpa using hc)]
      rw [pow_succ]
      ring_nf

theorem generatemoves_length (b : List Char) (hb : b ≠ []) :
    (generatemoves b).length =
      2 ^ (b.countP (fun ch => decide (ch ≠ '_'))) - 1 := by
  cases b with
  | nil => cases hb rfl
  | cons c rest =>
    unfold generatemoves
    have hlen0 : ∀ y ∈ (if c ≠ '_' then [[c], ['_']] else [[c]]), y.length = 1 := by
      by_cases hc : c = '_'
      · rw [if_neg (by simp [hc])]
        intro y hy
        simp only [List.mem_singleton] at hy
        subst hy; rfl
      · rw [if_pos hc]
        intro y hy
        simp only [List.mem_cons, List.mem_singleton, List.not_mem_nil, or_false] at hy
        rcases hy with rfl | rfl <;> rfl
    have hcount0 : List.count (List.replicate 1 '_')
        (if c ≠ '_' then [[c], ['_']] else [[c]]) = 1 := by
      by_cases hc : c = '_'
      · rw [if_neg (by simp [hc]), hc]
        rfl
      · rw [if_pos hc]
        rw [show (List.replicate 1 '_' : List Char) = ['_'] from rfl]
        rw [List.count_cons, List.count_cons, List.count_nil]
        simp [hc]
    have hcount := foldl_movesStep_count rest _ 1 hlen0 hcount0
    have hmem : List.replicate (rest.length + 1) '_' ∈
        rest.foldl movesStep (if c ≠ '_' then [[c], ['_']] else [[c]]) := by
      apply List.count_pos_iff.mp
      rw [show rest.length + 1 = 1 + rest.length from by omega]
      omega
    rw [List.length_erase_of_mem hmem]
    rw [foldl_movesStep_length]
    have hinitlen : (if c ≠ '_' then [[c], ['_']] else [[c]]).length =
        2 ^ (if c ≠ '_' then 1 else 0) := by
      by_cases hc : c = '_'
      · rw [if_neg (by simp [hc]), if_neg (by simp [hc])]
        rfl
      · rw [if_pos hc, if_pos hc]
        rfl
    rw [hinitlen, List.countP_cons]
    by_cases hc : c = '_'
    · rw [if_neg (by simp [hc]), if_neg (by simp [hc])]
      simp
    · rw [if_pos hc, if_pos (by simpa using hc)]
      rw [pow_succ]
      ring_nf

theorem basepairsP_countP (seqs : Seqs) :
    ∀ (c : Coord),
    List.Forall₂ (fun u s => u ≤ List.length s) c seqs →
    (∀ s ∈ seqs, '_' ∉ s) →
    (basepairsP seqs c).countP (fun ch => decide (ch ≠ '_')) =
      c.countP (fun u => decide (0 < u)) := by
  intro c hc
  induction hc with
  | nil => intro _; rfl
  | cons h1 h2 ih =>
    rename_i u s c2 ss
    intro hund
    show ((if u = 0 then '_' else s.getD (u - 1) '?') :: basepairsP ss c2).countP _ = _
    rw [List.countP_cons, List.countP_cons]
    rw [ih (fun t ht => hund t (List.mem_cons_of_mem s ht))]
    by_cases hu : u = 0
    · rw [if_pos hu]
      simp [hu]
    · rw [if_neg hu]
      have hlt : u - 1 < s.length := by omega
      have hch : s.getD (u - 1) '?' = s[u - 1] := List.getD_eq_getElem s '?' hlt
      have hmem : s.getD (u - 1) '?' ∈ s := by
        rw [hch]; exact List.getElem_mem hlt
      have hne : s.getD (u - 1) '?' ≠ '_' :=
        fun h => (hund s (by simp)) (h ▸ hmem)
      rw [if_pos (by simpa using hne), if_pos (by simp; omega)]

theorem generatemoves_not_allgap (b : List Char) :
    List.replicate b.length '_' ∉ generatemoves b := by
  intro h
  exact (generatemoves_shape b _ h).2 rfl

theorem move_zero_gap (seqs : Seqs) :
    ∀ (c : Coord) (mv : List Char), c.length = seqs.length →
    List.Forall₂ (fun mc bc => mc = '_' ∨ mc = bc) mv (basepairsP seqs c) →
    List.Forall₂ (fun mc u => u = 0 → mc = '_') mv c := by
  intro c
  induction c generalizing seqs with
  | nil =>
    intro mv _ h
    unfold basepairsP at h
    simp only [List.zipWith_nil_left] at h
    cases h
    exact List.Forall₂.nil
  | cons u c2 ih =>
    intro mv hlen h
    cases seqs with
    | nil => simp at hlen
    | cons s ss =>
      unfold basepairsP at h
      rw [List.zipWith_cons_cons] at h
      cases h with
      | cons h1 h2 =>
        rename_i m mv2
        refine List.Forall₂.cons ?_ (ih ss mv2 (by simpa using hlen) h2)
        intro hu
        rcases h1 with hm | hm
        · exact hm
        · rw [hm, if_pos hu]

/-- C8: move enumeration counts.  Over sequences whose alphabet does not
contain the gap marker `'_'`, at any in-bounds coordinate with `k` dimensions
at positive value, `generatemoves` yields exactly `2^k - 1` moves, the all-gap
pattern is never among them, and every dimension at coordinate 0 is gapped in
every move. -/
theorem C8_move_count (seqs : Seqs) (c : Coord)
    (hc : List.Forall₂ (fun u L => u ≤ L) c (seqs.map List.length))
    (hund : ∀ s ∈ seqs, '_' ∉ s) :
    generatebasepairs seqs c = .ok (basepairsP seqs c) ∧
    (generatemoves (basepairsP seqs c)).length =
      2 ^ (c.countP (fun u => decide (0 < u))) - 1 ∧
    List.replicate c.length '_' ∉ generatemoves (basepairsP seqs c) ∧
    (∀ mv ∈ generatemoves (basepairsP seqs c),
      List.Forall₂ (fun mc u => u = 0 → mc = '_') mv c) := by
  have hc2 : List.Forall₂ (fun u s => u ≤ List.length s) c seqs :=
    List.forall₂_map_right_iff.mp hc
  have hlen_c : c.length = seqs.length := by
    have h2 := hc.length_eq
    simpa using h2
  have hbp_len : (basepairsP seqs c).length = c.length := basepairsP_length seqs c hlen_c
  refine ⟨generatebasepairs_ok seqs c hc, ?_, ?_, ?_⟩
  · by_cases hcnil : c = []
    · subst hcnil
      cases seqs with
      | nil => rfl
      | cons s ss => simp at hlen_c
    · have hbp_ne : basepairsP seqs c ≠ [] := by
        intro h
        apply hcnil
        have h2 := hbp_len
        rw [h] at h2
        exact List.length_eq_zero.mp h2.symm
      rw [generatemoves_length _ hbp_ne, basepairsP_countP seqs c hc2 hund]
  · rw [← hbp_len]
    exact generatemoves_not_allgap _
  · intro mv hmv
    exact move_zero_gap seqs c mv hlen_c (generatemoves_shape _ _ hmv).1

theorem C8_move_count_witness :
    (List.Forall₂ (fun u L => u ≤ L) [1, 1] (([['A'], ['B']] : Seqs).map List.length) ∧
      ∀ s ∈ ([['A'], ['B']] : Seqs), '_' ∉ s) ∧
    (generatebasepairs [['A'], ['B']] [1, 1] = .ok (basepairsP [['A'], ['B']] [1, 1]) ∧
      (generatemoves (basepairsP [['A'], ['B']] [1, 1])).length =
        2 ^ (([1, 1] : Coord).countP (fun u => decide (0 < u))) - 1 ∧
      List.replicate ([1, 1] : Coord).length '_' ∉
        generatemoves (basepairsP [['A'], ['B']] [1, 1]) ∧
      (∀ mv ∈ generatemoves (basepairsP [['A'], ['B']] [1, 1]),
        List.Forall₂ (fun mc u => u = 0 → mc = '_') mv [1, 1])) :=
  ⟨⟨List.Forall₂.cons (by decide) (List.Forall₂.cons (by decide) List.Forall₂.nil),
    by decide⟩,
    C8_move_count [['A'], ['B']] [1, 1]
      (List.Forall₂.cons (by decide) (List.Forall₂.cons (by decide) List.Forall₂.nil))
      (by decide)⟩

/-- C10: traversal safety.  Whenever `solve` runs on a nonempty input whose
first sequence is nonempty, every coordinate visited by the odometer and every
move enumerated at it yield a predecessor coordinate that is componentwise
within bounds (entries are naturals, and each is at most the corresponding
sequence length), no consuming dimension sits at 0 (so the `v - 1` step never
underflows), and the predecessor slot is filled — both engines complete
without ever dereferencing an unset cell (`.ok` results, no
`AttributeError`). -/
theorem C10_traversal_safety (seqs : Seqs) (cfg : Config) (hs : seqs ≠ [])
    (h0 : 0 < (seqs.headD []).length) :
    (∃ M, NWsolve seqs cfg = .ok M ∧
      ∀ c ∈ (lattice (seqs.map List.length)).tail,
        ∀ mv ∈ generatemoves (basepairsP seqs c),
          List.Forall₂ (fun u L => u ≤ L) (generatecoordinates mv c)
            (seqs.map List.length) ∧
          List.Forall₂ (fun mc u => mc ≠ '_' → 1 ≤ u) mv c ∧
          M (generatecoordinates mv c) ≠ none) ∧
    (∃ M2 B2, SWsolve seqs cfg = .ok (M2, B2)) := by
  obtain ⟨M, hM, hinv⟩ := NWsolve_post seqs cfg hs h0
  obtain ⟨M2, B2, hM2, _⟩ := SWsolve_post seqs cfg hs h0
  refine ⟨⟨M, hM, ?_⟩, ⟨M2, B2, hM2⟩⟩
  intro c hc mv hmv
  have hc_mem : c ∈ lattice (seqs.map List.length) := List.mem_of_mem_tail hc
  have hc_f2 := (mem_lattice_iff _ _).mp hc_mem
  obtain ⟨hstep, hp_mem, _⟩ := move_pred_main seqs c mv hc_f2 hmv
  have hgap := move_gap_or_pos seqs c mv
    (by have h2 := hc_f2.length_eq; simpa using h2)
    (generatemoves_shape _ _ hmv).1
  refine ⟨(mem_lattice_iff _ _).mp hp_mem, ?_, ?_⟩
  · exact hgap.imp (fun h h2 => by tauto)
  · intro hnone
    have h2 := (hinv.1 _).mpr hp_mem
    rw [hnone] at h2
    simp at h2

theorem C10_traversal_safety_witness :
    (([['A'], ['A']] : Seqs) ≠ []) ∧
    0 < (([['A'], ['A']] : Seqs).headD []).length ∧
    (∃ M, NWsolve [['A'], ['A']] {} = .ok M) ∧
    (∃ M2 B2, SWsolve [['A'], ['A']] {} = .ok (M2, B2)) :=
  ⟨by decide, by decide,
    match C10_traversal_safety [['A'], ['A']] {} (by decide) (by decide) with
    | ⟨⟨M, hM, _⟩, _⟩ => ⟨M, hM⟩,
    match C10_traversal_safety [['A'], ['A']] {} (by decide) (by decide) with
    | ⟨_, h⟩ => h⟩

/-- C9: traceback/strip round trip.  Whenever the solved global engine
produces its textual report, deleting all gap markers `'.'` from the
reconstructed row of sequence `v`, preserving order, yields exactly the
original sequence `v`.  (The sequences are assumed not to contain the gap
marker `'.'` itself, otherwise stripping is ambiguous.) -/
theorem C9_strip_roundtrip (seqs : Seqs) (cfg : Config) (hs : seqs ≠ [])
    (h0 : 0 < (seqs.headD []).length) (hdot : ∀ s ∈ seqs, '.' ∉ s) :
    ∀ sc rows, NWreport seqs cfg = .ok (.solved sc rows) →
    ∀ v, v < seqs.length → stripGaps (rows.getD v []) = seqs.getD v [] := by
  intro sc rows hrep v hv
  obtain ⟨M', hM', hinv⟩ := NWsolve_post seqs cfg hs h0
  obtain ⟨M, hM, hstr⟩ : ∃ M, NWsolve seqs cfg = .ok M ∧
      NWstr seqs M = .ok (.solved sc rows) := by
    unfold NWreport at hrep
    cases hsolve : NWsolve seqs cfg with
    | error e =>
      rw [hsolve] at hrep
      simp [Bind.bind, Except.bind] at hrep
    | ok M0 =>
      rw [hsolve] at hrep
      exact ⟨M0, rfl, hrep⟩
  have hMM : M' = M := by
    rw [hM] at hM'
    exact (Except.ok.inj hM').symm
  subst hMM
  have hfar_mem : (seqs.map List.length) ∈ lattice (seqs.map List.length) := by
    rw [mem_lattice_iff]
    exact List.forall₂_same.mpr (fun x _ => le_refl x)
  have hfar_some : ∃ scf, M' (seqs.map List.length) = some scf := by
    have h2 := (hinv.1 _).mpr hfar_mem
    cases hmx : M' (seqs.map List.length) with
    | none => rw [hmx] at h2; simp at h2
    | some s2 => exact ⟨s2, rfl⟩
  obtain ⟨scf, hscf⟩ := hfar_some
  have hnwstr : NWstr seqs M' = (do
      let result ← tracebackLoop M' (zeroC seqs) ((seqs.map List.length).sum + 1)
        (seqs.map List.length) []
      pure (NWOutput.solved scf.score
        (buildRows seqs (result ++ [seqs.map List.length])))) := by
    unfold NWstr retrievematrixelement
    rw [hscf]
    rfl
  rw [hnwstr] at hstr
  cases htl : tracebackLoop M' (zeroC seqs) ((seqs.map List.length).sum + 1)
      (seqs.map List.length) [] with
  | error e =>
    rw [htl] at hstr
    simp [Bind.bind, Except.bind] at hstr
  | ok result =>
    rw [htl] at hstr
    have hout : NWOutput.solved scf.score
        (buildRows seqs (result ++ [seqs.map List.length])) = .solved sc rows := by
      have h2 : (pure (NWOutput.solved scf.score
          (buildRows seqs (result ++ [seqs.map List.length]))) :
            Except PyErr NWOutput) = .ok (.solved sc rows) := by
        rw [← hstr]
        rfl
      exact Except.ok.inj h2
    have hrows : rows = buildRows seqs (result ++ [seqs.map List.length]) :=
      (NWOutput.solved.inj hout).2.symm
    obtain ⟨cp, hcp_res, hchain, hhead, hmem_all⟩ :=
      tracebackLoop_chain M' seqs cfg hinv _ _ _ _ hfar_mem htl
    rw [List.append_nil] at hcp_res
    subst hcp_res
    have hrow : rows.getD v [] =
        ((result ++ [seqs.map List.length]).zip (result ++ [seqs.map List.length]).tail).map
          (fun ab => if ab.1.getD v 0 = ab.2.getD v 0 then '.'
            else (seqs.getD v []).getD (ab.2.getD v 0 - 1) '?') := by
      rw [hrows]
      unfold buildRows
      rw [List.getD_eq_getElem _ _ (by
        rw [List.length_map, List.length_range]
        exact hv)]
      rw [List.getElem_map, List.getElem_range]
    have hs_mem : seqs.getD v [] ∈ seqs := by
      rw [List.getD_eq_getElem seqs [] hv]
      exact List.getElem_mem hv
    have hall : ∀ y ∈ result ++ [seqs.map List.length],
        y.getD v 0 ≤ (seqs.getD v []).length := by
      intro y hy
      have hlat := hmem_all y hy
      have h2 := forall₂_le_getD ((mem_lattice_iff _ _).mp hlat) v
      rw [getD_map_length] at h2
      exact h2
    have hstrip := strip_row (seqs.getD v []) (hdot _ hs_mem) v
      (result ++ [seqs.map List.length]) (by simp) hchain hall
    rw [hrow, hstrip]
    have hheadz : ((result ++ [seqs.map List.length]).head (by simp)).getD v 0 = 0 := by
      rw [hhead]
      unfold zeroC
      rw [List.getD_eq_getElem?_getD, List.getElem?_replicate]
      by_cases hvn : v < seqs.length
      · rw [if_pos hvn]; rfl
      · rw [if_neg hvn]; rfl
    have hlastf : ((result ++ [seqs.map List.length]).getLast (by simp)).getD v 0 =
        (seqs.getD v []).length := by
      have h2 : (result ++ [seqs.map List.length]).getLast? =
          some (seqs.map List.length) := List.getLast?_concat result
      rw [List.getLast?_eq_getLast _ (by simp)] at h2
      rw [Option.some_inj.mp h2]
      rw [getD_map_length]
    rw [hheadz, hlastf]
    simp

theorem C9_strip_roundtrip_witness :
    ((([['A'], ['A']] : Seqs) ≠ []) ∧
      0 < (([['A'], ['A']] : Seqs).headD []).length ∧
      (∀ s ∈ ([['A'], ['A']] : Seqs), '.' ∉ s) ∧
      NWreport [['A'], ['A']] {} = .ok (.solved 5 [['A'], ['A']]) ∧
      0 < ([['A'], ['A']] : Seqs).length) ∧
    stripGaps (([['A'], ['A']] : List (List Char)).getD 0 []) =
      ([['A'], ['A']] : Seqs).getD 0 [] :=
  ⟨⟨by decide, by decide, by decide, by rfl, by decide⟩,
    C9_strip_roundtrip [['A'], ['A']] {} (by decide) (by decide) (by decide)
      5 [['A'], ['A']] (by rfl) 0 (by decide)⟩

/-- C8 counterexample: if a sequence contains the gap marker `'_'` as an
ordinary symbol, a dimension at positive coordinate still contributes a gap
base entry, so the move count falls short of `2^k - 1`: at coordinate `[1, 1]`
over sequences `"_"` and `"A"` there are `k = 2` positive dimensions but only
one move. -/
theorem C8_gap_symbol_counterexample :
    (generatemoves (basepairsP [['_'], ['A']] [1, 1])).length = 1 ∧
    ([1, 1] : Coord).countP (fun u => decide (0 < u)) = 2 ∧
    (1 : Nat) ≠ 2 ^ 2 - 1 :=
  ⟨by rfl, by rfl, by decide⟩

/-- C9 counterexample: if a sequence contains the output gap marker `'.'` as
an ordinary symbol, its consumed symbols are indistinguishable from gap
columns and stripping removes them too: aligning `"."` with `"."` reports the
row `"."`, which strips to the empty string, not the original sequence. -/
theorem C9_dot_sequence_counterexample :
    NWreport [['.'], ['.']] {} = .ok (.solved 5 [['.'], ['.']]) ∧
    stripGaps (([['.'], ['.']] : List (List Char)).getD 0 []) = [] ∧
    ([] : List Char) ≠ ([['.'], ['.']] : List (List Char)).getD 0 [] :=
  ⟨by rfl, by rfl, by decide⟩
